import Mathlib

/-! # The index engine of the mini database (`Engine.h`)

`Engine.h` keeps the records in a vector (`heap`) and two search-tree indexes over it:
`idIndex` (student id to heap position) and `lastIndex` (lower-cased last name to the
list of heap positions).  The engine's five operations are embedded below as pure
functions that take the engine state and return the result together with the new state.

Conventions of the embedding.

* A `std::string` is a list of bytes; `operator<` on strings is the byte-wise
  lexicographic order of `std::char_traits<char>` (bytes compared as `unsigned char`).
* An `int` is an `Int`.  The only conversion in the source, `(int)heap.size()`, is taken
  to be exact: the heap is assumed to hold fewer than `2^31` records.
* A `const Record*` pointing at `heap[rid]` is the position `rid` itself (a `Nat`);
  `nullptr` is `none`.
* `BST.h` and `Record.h` are not among the sources.  The tree and the record are
  modelled from the specification; every such definition says so.
-/

namespace MiniDB

/-! ## Strings -/

/-- One `char` of a `std::string`, seen as `unsigned char`. -/
abbrev Byte := Fin 256

/-- A `std::string`. -/
structure Str where
  bytes : List Byte
deriving DecidableEq

/-- Byte-wise lexicographic `operator<` of `std::string`: at the first differing byte the
smaller byte decides; a proper initial segment is smaller than the longer string. -/
def bytesLt : List Byte → List Byte → Bool
  | [], [] => false
  | [], _ :: _ => true
  | _ :: _, [] => false
  | a :: as, b :: bs => if a < b then true else if b < a then false else bytesLt as bs

instance instLTStr : LT Str :=
  ⟨fun a b => bytesLt a.bytes b.bytes = true⟩

instance instLEStr : LE Str :=
  ⟨fun a b => bytesLt b.bytes a.bytes = false⟩

instance instDecidableLTStr : DecidableRel (α := Str) (· < ·) :=
  fun a b => inferInstanceAs (Decidable (bytesLt a.bytes b.bytes = true))

instance instDecidableLEStr : DecidableRel (α := Str) (· ≤ ·) :=
  fun a b => inferInstanceAs (Decidable (bytesLt b.bytes a.bytes = false))

/-- The function `tolower` of `<cctype>` in the default "C" locale: the bytes
`'A'` (65) .. `'Z'` (90) are moved to `'a'` .. `'z'`, every other byte is kept. -/
def tolower (c : Byte) : Byte :=
  if 65 ≤ c.val ∧ c.val ≤ 90 then c + 32 else c

/-- The function `toLower` of `Engine.h`: `for (char &c : s) c = (char)tolower((unsigned char)c)`. -/
def toLower (s : Str) : Str :=
  ⟨s.bytes.map tolower⟩

/-- The test `key.rfind(p, 0) == 0`: the string `key` starts with `p`. -/
def startsWith (key p : Str) : Bool :=
  p.bytes.isPrefixOf key.bytes

/-- The call `s.push_back(c)`. -/
def Str.push_back (s : Str) (c : Byte) : Str :=
  ⟨s.bytes ++ [c]⟩

/-! ## Records -/

/-- Modelled from the spec: `Record.h` is missing.  Section 3 of the specification gives a
record an integer `id`, a `last` name, "other descriptive fields" (kept here as one opaque
string) and a mutable `deleted` flag. -/
structure Record where
  id : Int
  last : Str
  other : Str
  deleted : Bool
deriving DecidableEq

/-! ## The search tree (`BST.h`) -/

/-- Modelled from the spec: `BST.h` is missing.  Section 3: "a node-based binary search
tree keyed by `K`", each node owning one key, one value and at most two child subtrees. -/
inductive Tree (K V : Type) where
  | nil : Tree K V
  | node (left : Tree K V) (key : K) (val : V) (right : Tree K V) : Tree K V
deriving DecidableEq

namespace Tree

variable {K V σ : Type}

/-- The keys of a tree, left to right (in-order). -/
def keys : Tree K V → List K
  | nil => []
  | node l k _ r => l.keys ++ k :: r.keys

/-- The (key, value) pairs of a tree, left to right (in-order). -/
def toList : Tree K V → List (K × V)
  | nil => []
  | node l k v r => l.toList ++ (k, v) :: r.toList

/-- Modelled from the spec: `BST.h` is missing.  The search-tree invariant of section 3:
"for every node, all keys in the left subtree compare less than the node's key, all keys
in the right subtree compare greater". -/
def Ordered [LT K] : Tree K V → Prop
  | nil => True
  | node l k _ r => l.Ordered ∧ r.Ordered ∧ (∀ x ∈ l.keys, x < k) ∧ (∀ x ∈ r.keys, k < x)

instance decOrdered [LT K] [DecidableRel (α := K) (· < ·)] : (t : Tree K V) → Decidable t.Ordered
  | nil => isTrue trivial
  | node l k _ r =>
    have := decOrdered l
    have := decOrdered r
    inferInstanceAs (Decidable (l.Ordered ∧ r.Ordered ∧ (∀ x ∈ l.keys, x < k) ∧ (∀ x ∈ r.keys, k < x)))

variable [LT K] [LE K] [DecidableRel (α := K) (· < ·)] [DecidableRel (α := K) (· ≤ ·)]

/-- Modelled from the spec: `BST::find` is missing.  Section 4.1: "a binary-search
descent from the root, comparing `key` against each visited node's key". -/
def find (k : K) : Tree K V → Option V
  | nil => none
  | node l key val r =>
    if k < key then l.find k else if key < k then r.find k else some val

/-- Modelled from the spec: the comparison counter of `BST.h` is missing.  The number of
key comparisons of the descent of `find`: one evaluation of less-than when the search goes
left, two when it goes right or stops at the node. -/
def findCmps (k : K) : Tree K V → Nat
  | nil => 0
  | node l key _ r =>
    if k < key then 1 + l.findCmps k else if key < k then 2 + r.findCmps k else 2

/-- Modelled from the spec: `BST::insert` is missing.  Section 4.1: "If `key` exists,
replaces its value in place; otherwise creates a new node and attaches it at the correct
position by binary-search descent." -/
def insert (k : K) (v : V) : Tree K V → Tree K V
  | nil => node nil k v nil
  | node l key val r =>
    if k < key then node (l.insert k v) key val r
    else if key < k then node l key val (r.insert k v)
    else node l key v r

/-- Modelled from the spec: `BST::find` is missing; section 4.1 has it return "a mutable
reference to the stored value".  A write of `v` through the reference that `find` returned
for `k`: the value of the node holding `k` becomes `v`; nothing else changes, and a tree
without `k` is left as it is. -/
def store (k : K) (v : V) : Tree K V → Tree K V
  | nil => nil
  | node l key val r =>
    if k < key then node (l.store k v) key val r
    else if key < k then node l key val (r.store k v)
    else node l key v r

/-- Modelled from the spec: `BST::erase` is missing.  The leftmost entry of a tree: the
"in-order successor" of a node with two children is the leftmost entry of its right
subtree. -/
def minEntry : Tree K V → Option (K × V)
  | nil => none
  | node nil k v _ => some (k, v)
  | node (node ll lk lv lr) _ _ _ => (node ll lk lv lr).minEntry

/-- Modelled from the spec: `BST::erase` is missing.  Section 4.1: "standard BST
deletion: leaf/one-child removal is direct; two-child removal replaces the node's
key/value with its in-order successor and recursively removes that successor node". -/
def erase (k : K) : Tree K V → Tree K V
  | nil => nil
  | node l key val r =>
    if k < key then node (l.erase k) key val r
    else if key < k then node l key val (r.erase k)
    else
      match l, r.minEntry with
      | nil, _ => r
      | _, none => l
      | _, some (sk, sv) => node l sk sv (r.erase sk)

/-- Modelled from the spec: the comparison counter of `BST.h` is missing.  The key
comparisons of `erase`: those of the descent to the node, and for a node with two
children those of the descent that removes the successor. -/
def eraseCmps (k : K) : Tree K V → Nat
  | nil => 0
  | node l key _ r =>
    if k < key then 1 + l.eraseCmps k
    else if key < k then 2 + r.eraseCmps k
    else
      match l, r.minEntry with
      | nil, _ => 2
      | _, none => 2
      | _, some (sk, _) => 2 + r.eraseCmps sk

/-- Modelled from the spec: `BST::rangeApply` is missing.  Section 4.1: "at each node,
recurse left only if `lo < node.key`, visit the node only if `lo <= node.key <= hi`,
recurse right only if `node.key < hi`".  The visitor receives the key, the value and the
state it has captured, and gives back the value (which it may have changed in place)
and its new state. -/
def rangeApply (lo hi : K) (f : K → V → σ → V × σ) : Tree K V → σ → Tree K V × σ
  | nil, s => (nil, s)
  | node l key val r, s =>
    let ls := if lo < key then l.rangeApply lo hi f s else (l, s)
    let vs := if lo ≤ key ∧ key ≤ hi then f key val ls.2 else (val, ls.2)
    let rs := if key < hi then r.rangeApply lo hi f vs.2 else (r, vs.2)
    (node ls.1 key vs.1 rs.1, rs.2)

/-- The entries with key in `[lo, hi]`, in ascending key order: what `rangeApply lo hi`
visits in a search tree. -/
def inRange (lo hi : K) (t : Tree K V) : List (K × V) :=
  t.toList.filter (fun kv => decide (lo ≤ kv.1 ∧ kv.1 ≤ hi))

/-- Modelled from the spec: the comparison counter of `BST.h` is missing.  The key
comparisons of `rangeApply`: "comparisons performed during pruning and the bound checks
all increment the counter"; the second bound check is made only when the first holds. -/
def rangeCmps (lo hi : K) : Tree K V → Nat
  | nil => 0
  | node l key _ r =>
    (if lo < key then 1 + l.rangeCmps lo hi else 1)
      + (if lo ≤ key then 2 else 1)
      + (if key < hi then 1 + r.rangeCmps lo hi else 1)

end Tree

/-- Modelled from the spec: `BST.h` is missing.  A `BST<K, V>` object: the root of its
tree and the `comparisons` counter, which is "reset explicitly before a metered operation
and incremented once per key comparison". -/
structure BST (K V : Type) where
  root : Tree K V
  comparisons : Nat
deriving DecidableEq

namespace BST

variable {K V σ : Type}
variable [LT K] [LE K] [DecidableRel (α := K) (· < ·)] [DecidableRel (α := K) (· ≤ ·)]

/-- Modelled from the spec: `BST.h` is missing.  A freshly constructed index: no node,
counter at zero. -/
def empty : BST K V :=
  ⟨Tree.nil, 0⟩

/-- Modelled from the spec: `BST::resetMetrics` is missing.  Section 4.1: "zeroes the
comparison counter". -/
def resetMetrics (b : BST K V) : BST K V :=
  { b with comparisons := 0 }

/-- Modelled from the spec: `BST::find` is missing.  The call `find(key)`: the value
found, if any, and the object with its counter advanced. -/
def find (b : BST K V) (k : K) : Option V × BST K V :=
  (b.root.find k, { b with comparisons := b.comparisons + b.root.findCmps k })

/-- Modelled from the spec: `BST::insert` is missing.  The call `insert(key, value)`,
with the counter advanced by the comparisons of the descent. -/
def insert (b : BST K V) (k : K) (v : V) : BST K V :=
  ⟨b.root.insert k v, b.comparisons + b.root.findCmps k⟩

/-- Modelled from the spec: `BST::find` is missing.  A write of `v` through the reference
returned by `find(k)`; no key is compared. -/
def store (b : BST K V) (k : K) (v : V) : BST K V :=
  { b with root := b.root.store k v }

/-- Modelled from the spec: `BST::erase` is missing.  The call `erase(key)`: "returns
whether a removal occurred". -/
def erase (b : BST K V) (k : K) : Bool × BST K V :=
  ((b.root.find k).isSome, ⟨b.root.erase k, b.comparisons + b.root.eraseCmps k⟩)

/-- Modelled from the spec: `BST::rangeApply` is missing.  The call
`rangeApply(lo, hi, visitor)`: the object afterwards and the visitor's final state. -/
def rangeApply (b : BST K V) (lo hi : K) (f : K → V → σ → V × σ) (s : σ) : BST K V × σ :=
  (⟨(b.root.rangeApply lo hi f s).1, b.comparisons + b.root.rangeCmps lo hi⟩,
    (b.root.rangeApply lo hi f s).2)

end BST

/-! ## The engine (`Engine.h`) -/

/-- The state of `struct Engine`: the record store and the two indexes. -/
structure Engine where
  heap : List Record
  idIndex : BST Int Int
  lastIndex : BST Str (List Int)
deriving DecidableEq

namespace Engine

/-- A default-constructed engine: empty store, empty indexes. -/
def empty : Engine :=
  ⟨[], BST.empty, BST.empty⟩

/-- The guard `rid >= 0 && rid < (int)heap.size() && !heap[rid].deleted` of the three
queries; `heap[rid]` is read only when the two bounds hold. -/
def isLive (heap : List Record) (rid : Int) : Bool :=
  decide (0 ≤ rid) && (decide (rid < heap.length) &&
    match heap[rid.toNat]? with
    | some r => !r.deleted
    | none => false)

/-- The member function `insertRecord` (`Engine.h`, lines 29-42). -/
def insertRecord (e : Engine) (recIn : Record) : Int × Engine :=
  let rid : Int := e.heap.length
  let heap := e.heap ++ [recIn]
  let idIndex := e.idIndex.insert recIn.id rid
  let key := toLower recIn.last
  let found := e.lastIndex.find key
  match found.1 with
  | some vec => (rid, ⟨heap, idIndex, found.2.store key (vec ++ [rid])⟩)
  | none => (rid, ⟨heap, idIndex, found.2.insert key [rid]⟩)

/-- The member function `deleteById` (`Engine.h`, lines 46-65).  The `std::remove`/`erase`
idiom drops every element equal to `rid` and keeps the others in order.  The branch for
`heap[rid]` out of range cannot be taken: it sits behind the bounds test. -/
def deleteById (e : Engine) (id : Int) : Bool × Engine :=
  let found := e.idIndex.find id
  match found.1 with
  | none => (false, { e with idIndex := found.2 })
  | some rid =>
    if rid < 0 ∨ rid ≥ e.heap.length then (false, { e with idIndex := found.2 })
    else
      match e.heap[rid.toNat]? with
      | none => (false, { e with idIndex := found.2 })
      | some r =>
        if r.deleted then (false, { e with idIndex := found.2 })
        else
          let heap := e.heap.set rid.toNat { r with deleted := true }
          let idIndex := (found.2.erase id).2
          let key := toLower r.last
          let foundVec := e.lastIndex.find key
          match foundVec.1 with
          | some vec => (true, ⟨heap, idIndex, foundVec.2.store key (vec.filter (· ≠ rid))⟩)
          | none => (true, ⟨heap, idIndex, foundVec.2⟩)

/-- The member function `findById` (`Engine.h`, lines 70-81): the pointer returned, the
value written to `cmpOut`, and the engine afterwards. -/
def findById (e : Engine) (id : Int) : Option Nat × Nat × Engine :=
  let found := e.idIndex.resetMetrics.find id
  let cmpOut := found.2.comparisons
  let e1 : Engine := { e with idIndex := found.2 }
  match found.1 with
  | none => (none, cmpOut, e1)
  | some rid => if isLive e.heap rid then (some rid.toNat, cmpOut, e1) else (none, cmpOut, e1)

/-- The visitor of `rangeById`: `if (live) out.push_back(&heap[rid])`; the value `rid` is
not written. -/
def rangeVisitor (heap : List Record) (_k : Int) (rid : Int) (out : List Nat) :
    Int × List Nat :=
  (rid, if isLive heap rid then out ++ [rid.toNat] else out)

/-- The member function `rangeById` (`Engine.h`, lines 85-96): the vector returned, the
value written to `cmpOut`, and the engine afterwards. -/
def rangeById (e : Engine) (lo hi : Int) : List Nat × Nat × Engine :=
  let res := e.idIndex.resetMetrics.rangeApply lo hi (rangeVisitor e.heap) []
  (res.2, res.1.comparisons, { e with idIndex := res.1 })

/-- The visitor of `prefixByLast`: a key that does not start with `p` is skipped;
otherwise the loop over `vec` pushes every live position, in the order of `vec`.  The
value `vec` is not written. -/
def prefixVisitor (heap : List Record) (p : Str) (key : Str) (vec : List Int)
    (out : List Nat) : List Int × List Nat :=
  if startsWith key p then
    (vec, out ++ (vec.filter (isLive heap)).map Int.toNat)
  else (vec, out)

/-- The member function `prefixByLast` (`Engine.h`, lines 100-116): the vector returned,
the value written to `cmpOut`, and the engine afterwards. -/
def prefixByLast (e : Engine) (pfx : Str) : List Nat × Nat × Engine :=
  let p := toLower pfx
  let p_hi := p.push_back 255
  let res := e.lastIndex.resetMetrics.rangeApply p p_hi (prefixVisitor e.heap p) []
  (res.2, res.1.comparisons, { e with lastIndex := res.1 })

end Engine

/-! ## Well-formed states -/

namespace Engine

/-- The class invariant of the two `BST` objects: both trees are search trees. -/
def WF (e : Engine) : Prop :=
  e.idIndex.root.Ordered ∧ e.lastIndex.root.Ordered

instance decWF (e : Engine) : Decidable e.WF :=
  inferInstanceAs (Decidable (e.idIndex.root.Ordered ∧ e.lastIndex.root.Ordered))

/-- What holds of the indexes after any sequence of `insertRecord` and `deleteById` calls:
stored positions are in bounds and point at a record with the indexed key, every
last-name sequence is strictly ascending, and every live record is in its sequence. -/
structure Inv (e : Engine) : Prop where
  idOrdered : e.idIndex.root.Ordered
  lastOrdered : e.lastIndex.root.Ordered
  idBound : ∀ k rid, e.idIndex.root.find k = some rid →
    0 ≤ rid ∧ rid < e.heap.length ∧ ∃ r, e.heap[rid.toNat]? = some r ∧ r.id = k
  lastBound : ∀ key vec, e.lastIndex.root.find key = some vec →
    vec.Pairwise (· < ·) ∧ ∀ p ∈ vec, 0 ≤ p ∧ p < e.heap.length ∧
      ∃ r, e.heap[p.toNat]? = some r ∧ toLower r.last = key
  lastComplete : ∀ (p : Nat) r, e.heap[p]? = some r → r.deleted = false →
    ∃ vec, e.lastIndex.root.find (toLower r.last) = some vec ∧ (p : Int) ∈ vec

/-- What holds in addition when every inserted record is live and carries an id that no
live record has: `idIndex` holds exactly the live records. -/
structure InvU (e : Engine) : Prop where
  idLive : ∀ k rid r, e.idIndex.root.find k = some rid → e.heap[rid.toNat]? = some r →
    r.deleted = false
  idComplete : ∀ (p : Nat) r, e.heap[p]? = some r → r.deleted = false →
    e.idIndex.root.find r.id = some (p : Int)

/-- What holds in addition when every inserted record is live (ids may repeat): no index
entry points at a record marked deleted. -/
structure InvL (e : Engine) : Prop where
  idLive : ∀ k rid r, e.idIndex.root.find k = some rid → e.heap[rid.toNat]? = some r →
    r.deleted = false
  lastLive : ∀ key vec p r, e.lastIndex.root.find key = some vec → p ∈ vec →
    e.heap[p.toNat]? = some r → r.deleted = false

end Engine

/-! ## Runs of the engine -/

/-- A call that changes the engine: `insertRecord(r)` or `deleteById(id)`. -/
inductive Op where
  | insert (r : Record) : Op
  | delete (id : Int) : Op
deriving DecidableEq

/-- The engine after one call. -/
def step (e : Engine) : Op → Engine
  | Op.insert r => (e.insertRecord r).2
  | Op.delete id => (e.deleteById id).2

/-- The engine reached from the empty engine by a sequence of calls, first call first. -/
def run (ops : List Op) : Engine :=
  ops.foldl step Engine.empty

/-- Some record of the store is live (not deleted) and carries the id `id`. -/
def hasLiveId (heap : List Record) (id : Int) : Bool :=
  heap.any (fun r => !r.deleted && decide (r.id = id))

/-- The precondition of a call in a run with caller-side unique ids: an inserted record is
not marked deleted and its id is not the id of a currently live record. -/
def stepOk (e : Engine) : Op → Bool
  | Op.insert r => !r.deleted && !hasLiveId e.heap r.id
  | Op.delete _ => true

/-- Every call of the sequence, started in `e`, meets `stepOk` in the state it is made in. -/
def runOk (e : Engine) : List Op → Bool
  | [] => true
  | op :: ops => stepOk e op && runOk (step e op) ops

/-- Every record inserted by the sequence of calls has `deleted = false`. -/
def insertsLive (ops : List Op) : Bool :=
  ops.all (fun op =>
    match op with
    | Op.insert r => !r.deleted
    | Op.delete _ => true)

/-! ## The scenario of section 8 of the specification -/

/-- The string "Smith". -/
def smith : Str := ⟨[83, 109, 105, 116, 104]⟩

/-- The string "Smythe". -/
def smythe : Str := ⟨[83, 109, 121, 116, 104, 101]⟩

/-- The string "Jones". -/
def jones : Str := ⟨[74, 111, 110, 101, 115]⟩

/-- The string "Sm". -/
def sm : Str := ⟨[83, 109]⟩

/-- The record `{id:1, last:"Smith"}`. -/
def rec1 : Record := ⟨1, smith, ⟨[]⟩, false⟩

/-- The record `{id:2, last:"Smythe"}`. -/
def rec2 : Record := ⟨2, smythe, ⟨[]⟩, false⟩

/-- The record `{id:3, last:"Jones"}`. -/
def rec3 : Record := ⟨3, jones, ⟨[]⟩, false⟩

/-- The three inserts of the scenario. -/
def scenarioOps : List Op := [Op.insert rec1, Op.insert rec2, Op.insert rec3]

/-- The engine after the three inserts of the scenario. -/
def scenario : Engine := run scenarioOps

/-- The record `{id:1, last:"a\xff\xff"}`: a last name with the byte 255 after its first
letter. -/
def recFF : Record := ⟨1, ⟨[97, 255, 255]⟩, ⟨[]⟩, false⟩

/-- The record `{id:1, last:"Smith"}` with its `deleted` flag already set. -/
def recDel : Record := ⟨1, smith, ⟨[]⟩, true⟩

/-- A state of the engine's type that no sequence of `insertRecord` and `deleteById` calls
produces: both trees are search trees, and `idIndex` maps the ids 1 and 2 to the same
position 0. -/
def aliased : Engine :=
  ⟨[rec1], ⟨Tree.node Tree.nil 1 0 (Tree.node Tree.nil 2 0 Tree.nil), 0⟩,
    ⟨Tree.node Tree.nil (toLower smith) [0] Tree.nil, 0⟩⟩

end MiniDB

/-! # Theorems -/

namespace MiniDB

/-! ## The order of strings -/

theorem bytesLt_irrefl (a : List Byte) : bytesLt a a = false := by
  induction a with
  | nil => rfl
  | cons x xs ih => simp [bytesLt, ih]

theorem bytesLt_asymm (a b : List Byte) (h : bytesLt a b = true) : bytesLt b a = false := by
  induction a generalizing b with
  | nil => cases b <;> simp_all [bytesLt]
  | cons x xs ih =>
    cases b with
    | nil => simp [bytesLt] at h
    | cons y ys =>
      simp only [bytesLt] at h ⊢
      split_ifs at h ⊢ with h1 h2 h3 <;>
        first
        | rfl
        | exact ih ys h
        | (exfalso; simp only [Fin.lt_def, not_lt] at *; omega)

theorem bytesLt_trans (a b c : List Byte) (h1 : bytesLt a b = true) (h2 : bytesLt b c = true) :
    bytesLt a c = true := by
  induction a generalizing b c with
  | nil => cases b <;> cases c <;> simp_all [bytesLt]
  | cons x xs ih =>
    cases b with
    | nil => simp [bytesLt] at h1
    | cons y ys =>
      cases c with
      | nil => simp [bytesLt] at h2
      | cons z zs =>
        simp only [bytesLt] at h1 h2 ⊢
        split_ifs at h1 h2 ⊢ with g1 g2 g3 g4 g5 g6 g7 g8 g9 <;>
          first
          | rfl
          | exact ih _ _ h1 h2
          | (exfalso; simp only [Fin.lt_def, not_lt] at *; omega)

theorem bytesLt_connex (a b : List Byte) (h1 : bytesLt a b = false) (h2 : bytesLt b a = false) :
    a = b := by
  induction a generalizing b with
  | nil => cases b <;> simp_all [bytesLt]
  | cons x xs ih =>
    cases b with
    | nil => simp [bytesLt] at h2
    | cons y ys =>
      simp only [bytesLt] at h1 h2
      split_ifs at h1 h2 with g1 g2
      have : x = y := le_antisymm (not_lt.mp g2) (not_lt.mp g1)
      rw [this, ih ys h1 h2]

theorem Str.lt_def (a b : Str) : a < b ↔ bytesLt a.bytes b.bytes = true := Iff.rfl

theorem Str.le_def (a b : Str) : a ≤ b ↔ bytesLt b.bytes a.bytes = false := Iff.rfl

/-- The order of `std::string` is a linear order. -/
instance instLinearOrderStr : LinearOrder Str where
  le := instLEStr.le
  lt := instLTStr.lt
  le_refl a := bytesLt_irrefl a.bytes
  le_trans a b c hab hbc := by
    rw [Str.le_def] at hab hbc ⊢
    cases hca : bytesLt c.bytes a.bytes with
    | false => rfl
    | true =>
      cases hba : bytesLt a.bytes b.bytes with
      | true => rw [bytesLt_trans _ _ _ hca hba] at hbc; exact hbc
      | false => rw [← bytesLt_connex _ _ hba hab, hca] at hbc; exact hbc
  lt_iff_le_not_le a b := by
    rw [Str.le_def, Str.le_def, Str.lt_def]
    constructor
    · intro h; exact ⟨bytesLt_asymm _ _ h, by simp [h]⟩
    · intro h; simpa using h.2
  le_antisymm a b hab hba := by
    rw [Str.le_def] at hab hba
    cases a; cases b
    simp only [Str.mk.injEq]
    exact bytesLt_connex _ _ hba hab
  le_total a b := by
    rw [Str.le_def, Str.le_def]
    cases h : bytesLt a.bytes b.bytes with
    | true => exact Or.inl (bytesLt_asymm _ _ h)
    | false => exact Or.inr rfl
  decidableLE := instDecidableLEStr
  decidableLT := instDecidableLTStr

/-! ## The search tree -/

namespace Tree

theorem keys_eq_map_toList {K V : Type} (t : Tree K V) : t.keys = t.toList.map Prod.fst := by
  induction t with
  | nil => rfl
  | node l k v r ihl ihr => simp [keys, toList, ihl, ihr]

variable {K V σ : Type} [LinearOrder K]

theorem find_insert (k : K) (v : V) (x : K) (t : Tree K V) :
    (t.insert k v).find x = if x = k then some v else t.find x := by
  induction t with
  | nil =>
    simp only [insert, find]
    rcases lt_trichotomy x k with h | h | h
    · simp [h, h.ne]
    · simp [h]
    · simp [h, h.ne', lt_asymm h]
  | node l key val r ihl ihr =>
    simp only [insert]
    rcases lt_trichotomy k key with h | h | h
    · simp only [h, if_true, find, ihl]
      by_cases hx : x = k
      · simp [hx, h]
      · simp [hx]
    · subst h
      simp only [lt_irrefl, if_false, find]
      rcases lt_trichotomy x k with hx | hx | hx
      · simp [hx, hx.ne]
      · simp [hx]
      · simp [hx, hx.ne', lt_asymm hx]
    · simp only [lt_asymm h, h, if_true, if_false, find, ihr]
      by_cases hx : x = k
      · simp [hx, h, lt_asymm h]
      · simp [hx]

theorem mem_keys_insert (k : K) (v : V) (x : K) (t : Tree K V) :
    x ∈ (t.insert k v).keys ↔ x = k ∨ x ∈ t.keys := by
  induction t with
  | nil => simp [insert, keys]
  | node l key val r ihl ihr =>
    simp only [insert]
    rcases lt_trichotomy k key with h | h | h
    · simp only [h, if_true, keys, List.mem_append, List.mem_cons, ihl]; tauto
    · subst h
      simp only [lt_irrefl, if_false, keys, List.mem_append, List.mem_cons]; tauto
    · simp only [lt_asymm h, h, if_true, if_false, keys, List.mem_append, List.mem_cons, ihr]
      tauto

theorem ordered_insert (k : K) (v : V) (t : Tree K V) (h : t.Ordered) :
    (t.insert k v).Ordered := by
  induction t with
  | nil => simp [insert, Ordered, keys]
  | node l key val r ihl ihr =>
    obtain ⟨hl, hr, hlk, hrk⟩ := h
    simp only [insert]
    rcases lt_trichotomy k key with h | h | h
    · simp only [h, if_true, Ordered]
      refine ⟨ihl hl, hr, ?_, hrk⟩
      intro x hx
      rcases (mem_keys_insert k v x l).mp hx with rfl | hx
      · exact h
      · exact hlk x hx
    · subst h
      simp only [lt_irrefl, if_false, Ordered]
      exact ⟨hl, hr, hlk, hrk⟩
    · simp only [lt_asymm h, h, if_true, if_false, Ordered]
      refine ⟨hl, ihr hr, hlk, ?_⟩
      intro x hx
      rcases (mem_keys_insert k v x r).mp hx with rfl | hx
      · exact h
      · exact hrk x hx

theorem keys_store (k : K) (v : V) (t : Tree K V) : (t.store k v).keys = t.keys := by
  induction t with
  | nil => rfl
  | node l key val r ihl ihr =>
    simp only [store]
    split_ifs <;> simp [keys, ihl, ihr]

theorem ordered_store (k : K) (v : V) (t : Tree K V) (h : t.Ordered) :
    (t.store k v).Ordered := by
  induction t with
  | nil => exact h
  | node l key val r ihl ihr =>
    obtain ⟨hl, hr, hlk, hrk⟩ := h
    simp only [store]
    split_ifs
    · exact ⟨ihl hl, hr, by simpa [keys_store] using hlk, hrk⟩
    · exact ⟨hl, ihr hr, hlk, by simpa [keys_store] using hrk⟩
    · exact ⟨hl, hr, hlk, hrk⟩

theorem find_store (k : K) (v : V) (x : K) (t : Tree K V) :
    (t.store k v).find x = if x = k then (t.find k).map (fun _ => v) else t.find x := by
  induction t with
  | nil => simp [store, find]
  | node l key val r ihl ihr =>
    simp only [store]
    rcases lt_trichotomy k key with h | h | h
    · simp only [h, if_true, find, ihl]
      by_cases hx : x = k
      · simp [hx, h]
      · simp [hx]
    · subst h
      simp only [lt_irrefl, if_false, find]
      rcases lt_trichotomy x k with hx | hx | hx
      · simp [hx, hx.ne]
      · simp [hx]
      · simp [hx, hx.ne', lt_asymm hx]
    · simp only [lt_asymm h, h, if_true, if_false, find, ihr]
      by_cases hx : x = k
      · simp [hx, h, lt_asymm h]
      · simp [hx]

theorem find_eq_none_of_not_mem (x : K) (t : Tree K V) (h : x ∉ t.keys) : t.find x = none := by
  induction t with
  | nil => rfl
  | node l key val r ihl ihr =>
    simp only [keys, List.mem_append, List.mem_cons, not_or] at h
    obtain ⟨h1, h2, h3⟩ := h
    simp only [find]
    rcases lt_trichotomy x key with hx | hx | hx
    · simp [hx, ihl h1]
    · exact absurd hx h2
    · simp [hx, lt_asymm hx, ihr h3]

omit [LinearOrder K] in
theorem minEntry_eq_none (t : Tree K V) (h : t.minEntry = none) : t = nil := by
  induction t with
  | nil => rfl
  | node l key val r ihl _ =>
    cases l with
    | nil => simp [minEntry] at h
    | node ll lk lv lr =>
      simp only [minEntry] at h
      exact absurd (ihl h) (by simp)

theorem minEntry_mem (t : Tree K V) (sk : K) (sv : V) (h : t.minEntry = some (sk, sv)) :
    sk ∈ t.keys := by
  induction t with
  | nil => simp [minEntry] at h
  | node l key val r ihl _ =>
    cases l with
    | nil =>
      simp only [minEntry, Option.some.injEq, Prod.mk.injEq] at h
      simp [keys, h.1]
    | node ll lk lv lr =>
      simp only [minEntry] at h
      have := ihl h
      simp only [keys, List.mem_append, List.mem_cons] at this ⊢
      tauto

theorem minEntry_le (t : Tree K V) (sk : K) (sv : V) (ho : t.Ordered)
    (h : t.minEntry = some (sk, sv)) : ∀ x ∈ t.keys, sk ≤ x := by
  induction t with
  | nil => simp [keys]
  | node l key val r ihl _ =>
    obtain ⟨hl, _, hlk, hrk⟩ := ho
    cases l with
    | nil =>
      simp only [minEntry, Option.some.injEq, Prod.mk.injEq] at h
      obtain ⟨rfl, _⟩ := h
      intro x hx
      simp only [keys, List.nil_append, List.mem_cons] at hx
      rcases hx with rfl | hx
      · exact le_refl _
      · exact (hrk x hx).le
    | node ll lk lv lr =>
      simp only [minEntry] at h
      have hmem := minEntry_mem _ sk sv h
      have hsk : sk < key := hlk sk hmem
      intro x hx
      rw [keys, List.mem_append, List.mem_cons] at hx
      rcases hx with hx | rfl | hx
      · exact ihl hl h x hx
      · exact hsk.le
      · exact (hsk.trans (hrk x hx)).le

theorem find_minEntry (t : Tree K V) (sk : K) (sv : V) (ho : t.Ordered)
    (h : t.minEntry = some (sk, sv)) : t.find sk = some sv := by
  induction t with
  | nil => simp [minEntry] at h
  | node l key val r ihl _ =>
    obtain ⟨hl, _, hlk, _⟩ := ho
    cases l with
    | nil =>
      simp only [minEntry, Option.some.injEq, Prod.mk.injEq] at h
      obtain ⟨rfl, rfl⟩ := h
      simp [find]
    | node ll lk lv lr =>
      simp only [minEntry] at h
      have hsk : sk < key := hlk sk (minEntry_mem _ sk sv h)
      rw [find, if_pos hsk]
      exact ihl hl h

theorem erase_node_eq (k : K) (l : Tree K V) (val : V) (r : Tree K V) :
    (node l k val r).erase k =
      match l, r.minEntry with
      | nil, _ => r
      | _, none => l
      | _, some (sk, sv) => node l sk sv (r.erase sk) := by
  simp [erase]

theorem mem_keys_erase (k : K) (x : K) (t : Tree K V) (ho : t.Ordered) :
    x ∈ (t.erase k).keys ↔ x ∈ t.keys ∧ x ≠ k := by
  induction t generalizing k with
  | nil => simp [erase, keys]
  | node l key val r ihl ihr =>
    obtain ⟨hl, hr, hlk, hrk⟩ := ho
    rcases lt_trichotomy k key with h | h | h
    · simp only [erase, h, if_true, keys, List.mem_append, List.mem_cons, ihl k hl]
      constructor
      · rintro (⟨h1, h2⟩ | rfl | h1)
        · exact ⟨Or.inl h1, h2⟩
        · exact ⟨Or.inr (Or.inl rfl), h.ne'⟩
        · exact ⟨Or.inr (Or.inr h1), (h.trans (hrk x h1)).ne'⟩
      · rintro ⟨h1 | h1 | h1, h2⟩
        · exact Or.inl ⟨h1, h2⟩
        · exact Or.inr (Or.inl h1)
        · exact Or.inr (Or.inr h1)
    · subst h
      rw [erase_node_eq]
      cases l with
      | nil =>
        simp only [keys, List.nil_append, List.mem_cons]
        constructor
        · intro h1; exact ⟨Or.inr h1, (hrk x h1).ne'⟩
        · rintro ⟨rfl | h1, h2⟩
          · exact absurd rfl h2
          · exact h1
      | node ll lk lv lr =>
        cases hm : r.minEntry with
        | none =>
          have := minEntry_eq_none r hm
          subst this
          simp only [keys, List.mem_append, List.mem_cons, List.not_mem_nil, or_false]
          constructor
          · intro h1
            refine ⟨Or.inl h1, ?_⟩
            have := hlk x (by simpa [keys] using h1)
            exact this.ne
          · rintro ⟨h1 | rfl, h2⟩
            · exact h1
            · exact absurd rfl h2
        | some p =>
          obtain ⟨sk, sv⟩ := p
          have hmem := minEntry_mem r sk sv hm
          have hks : k < sk := hrk sk hmem
          simp only []
          have hk1 : ((ll.node lk lv lr).node sk sv (erase sk r)).keys
              = (ll.node lk lv lr).keys ++ sk :: (erase sk r).keys := rfl
          have hk2 : ((ll.node lk lv lr).node k val r).keys
              = (ll.node lk lv lr).keys ++ k :: r.keys := rfl
          rw [hk1, hk2, List.mem_append, List.mem_cons, ihr sk hr, List.mem_append, List.mem_cons]
          constructor
          · rintro (h1 | rfl | ⟨h1, _⟩)
            · exact ⟨Or.inl h1, (hlk x h1).ne⟩
            · exact ⟨Or.inr (Or.inr hmem), hks.ne'⟩
            · exact ⟨Or.inr (Or.inr h1), (hrk x h1).ne'⟩
          · rintro ⟨h1 | rfl | h1, h2⟩
            · exact Or.inl h1
            · exact absurd rfl h2
            · by_cases hx : x = sk
              · exact Or.inr (Or.inl hx)
              · exact Or.inr (Or.inr ⟨h1, hx⟩)
    · simp only [erase, lt_asymm h, h, if_true, if_false, keys, List.mem_append, List.mem_cons,
        ihr k hr]
      constructor
      · rintro (h1 | rfl | ⟨h1, h2⟩)
        · exact ⟨Or.inl h1, ((hlk x h1).trans h).ne⟩
        · exact ⟨Or.inr (Or.inl rfl), h.ne⟩
        · exact ⟨Or.inr (Or.inr h1), h2⟩
      · rintro ⟨h1 | h1 | h1, h2⟩
        · exact Or.inl h1
        · exact Or.inr (Or.inl h1)
        · exact Or.inr (Or.inr ⟨h1, h2⟩)

theorem ordered_erase (k : K) (t : Tree K V) (ho : t.Ordered) : (t.erase k).Ordered := by
  induction t generalizing k with
  | nil => exact ho
  | node l key val r ihl ihr =>
    have ho2 := ho
    obtain ⟨hl, hr, hlk, hrk⟩ := ho
    rcases lt_trichotomy k key with h | h | h
    · simp only [erase, h, if_true]
      refine ⟨ihl k hl, hr, ?_, hrk⟩
      intro x hx
      exact hlk x ((mem_keys_erase k x l hl).mp hx).1
    · subst h
      rw [erase_node_eq]
      cases l with
      | nil => simpa using hr
      | node ll lk lv lr =>
        cases hm : r.minEntry with
        | none => exact hl
        | some p =>
          obtain ⟨sk, sv⟩ := p
          have hmem := minEntry_mem r sk sv hm
          have hks : k < sk := hrk sk hmem
          refine ⟨hl, ihr sk hr, ?_, ?_⟩
          · intro x hx
            exact (hlk x hx).trans hks
          · intro x hx
            obtain ⟨h1, h2⟩ := (mem_keys_erase sk x r hr).mp hx
            exact lt_of_le_of_ne (minEntry_le r sk sv hr hm x h1) (Ne.symm h2)
    · simp only [erase, lt_asymm h, h, if_true, if_false]
      refine ⟨hl, ihr k hr, hlk, ?_⟩
      intro x hx
      exact hrk x ((mem_keys_erase k x r hr).mp hx).1

theorem find_erase (k : K) (x : K) (t : Tree K V) (ho : t.Ordered) :
    (t.erase k).find x = if x = k then none else t.find x := by
  induction t generalizing k with
  | nil => simp [erase, find]
  | node l key val r ihl ihr =>
    obtain ⟨hl, hr, hlk, hrk⟩ := ho
    rcases lt_trichotomy k key with h | h | h
    · simp only [erase, h, if_true, find, ihl k hl]
      by_cases hx : x = k
      · simp [hx, h]
      · simp [hx]
    · subst h
      have hnl : ∀ y, y ≤ k → y ∉ r.keys := fun y hy hm => absurd (hrk y hm) (not_lt.mpr hy)
      have hnr : ∀ y, k ≤ y → y ∉ l.keys := fun y hy hm => absurd (hlk y hm) (not_lt.mpr hy)
      rw [erase_node_eq]
      cases l with
      | nil =>
        simp only [find]
        rcases lt_trichotomy x k with hx | hx | hx
        · simp [hx, hx.ne, find_eq_none_of_not_mem x r (hnl x hx.le)]
        · simp [hx, find_eq_none_of_not_mem k r (hnl k le_rfl)]
        · simp [hx, hx.ne', lt_asymm hx]
      | node ll lk lv lr =>
        cases hm : r.minEntry with
        | none =>
          have := minEntry_eq_none r hm
          subst this
          simp only []
          rw [find.eq_2 x (ll.node lk lv lr) k val nil]
          rcases lt_trichotomy x k with hx | hx | hx
          · simp [hx, hx.ne]
          · simp [hx, find_eq_none_of_not_mem k _ (hnr k le_rfl)]
          · simp only [hx.ne', lt_asymm hx, hx, if_true, if_false]
            rw [find_eq_none_of_not_mem x _ (hnr x hx.le)]
            rfl
        | some p =>
          obtain ⟨sk, sv⟩ := p
          have hmem := minEntry_mem r sk sv hm
          have hks : k < sk := hrk sk hmem
          have hmin := minEntry_le r sk sv hr hm
          simp only []
          rw [find.eq_2 x (ll.node lk lv lr) sk sv, find.eq_2 x (ll.node lk lv lr) k val r,
            ihr sk hr]
          rcases lt_trichotomy x k with hx | hx | hx
          · simp [hx, hx.ne, hx.trans hks]
          · subst hx
            simp [hks, find_eq_none_of_not_mem x _ (hnr x le_rfl)]
          · simp only [hx.ne', lt_asymm hx, hx, if_true, if_false]
            rcases lt_trichotomy x sk with hs | hs | hs
            · have h1 : x ∉ r.keys := fun hm2 => absurd (hmin x hm2) (not_le.mpr hs)
              simp [hs, find_eq_none_of_not_mem x _ (hnr x hx.le), find_eq_none_of_not_mem x r h1]
            · subst hs
              simp [find_minEntry r x sv hr hm]
            · simp [hs, hs.ne', lt_asymm hs]
    · simp only [erase, lt_asymm h, h, if_true, if_false, find, ihr k hr]
      by_cases hx : x = k
      · simp [hx, h, lt_asymm h]
      · simp [hx]

omit [LinearOrder K] in
theorem mem_keys_of_mem_toList (t : Tree K V) (k : K) (v : V) (h : (k, v) ∈ t.toList) :
    k ∈ t.keys := by
  rw [keys_eq_map_toList]
  exact List.mem_map_of_mem Prod.fst h

theorem find_eq_some_iff (t : Tree K V) (ho : t.Ordered) (k : K) (v : V) :
    t.find k = some v ↔ (k, v) ∈ t.toList := by
  induction t with
  | nil => simp [find, toList]
  | node l key val r ihl ihr =>
    obtain ⟨hl, hr, hlk, hrk⟩ := ho
    simp only [find, toList, List.mem_append, List.mem_cons, Prod.mk.injEq]
    rcases lt_trichotomy k key with h | h | h
    · simp only [h, if_true, ihl hl]
      constructor
      · exact Or.inl
      · rintro (h1 | ⟨rfl, _⟩ | h1)
        · exact h1
        · exact absurd h (lt_irrefl _)
        · exact absurd (hrk k (mem_keys_of_mem_toList r k v h1)) (lt_asymm h)
    · subst h
      simp only [lt_irrefl, if_false, Option.some.injEq, true_and]
      constructor
      · intro h1; exact Or.inr (Or.inl h1.symm)
      · rintro (h1 | h1 | h1)
        · exact absurd (hlk k (mem_keys_of_mem_toList l k v h1)) (lt_irrefl _)
        · exact h1.symm
        · exact absurd (hrk k (mem_keys_of_mem_toList r k v h1)) (lt_irrefl _)
    · simp only [lt_asymm h, h, if_true, if_false, ihr hr]
      constructor
      · intro h1; exact Or.inr (Or.inr h1)
      · rintro (h1 | ⟨rfl, _⟩ | h1)
        · exact absurd (hlk k (mem_keys_of_mem_toList l k v h1)) (lt_asymm h)
        · exact absurd h (lt_irrefl _)
        · exact h1

theorem mem_keys_iff_find (t : Tree K V) (ho : t.Ordered) (k : K) :
    k ∈ t.keys ↔ ∃ v, t.find k = some v := by
  rw [keys_eq_map_toList, List.mem_map]
  constructor
  · rintro ⟨⟨k2, v⟩, hm, rfl⟩
    exact ⟨v, (find_eq_some_iff t ho k2 v).mpr hm⟩
  · rintro ⟨v, hv⟩
    exact ⟨(k, v), (find_eq_some_iff t ho k v).mp hv, rfl⟩

theorem not_mem_keys_iff_find (t : Tree K V) (ho : t.Ordered) (k : K) :
    k ∉ t.keys ↔ t.find k = none := by
  rw [mem_keys_iff_find t ho k]
  cases t.find k <;> simp

theorem pairwise_keys (t : Tree K V) (ho : t.Ordered) : t.keys.Pairwise (· < ·) := by
  induction t with
  | nil => simp [keys]
  | node l key val r ihl ihr =>
    obtain ⟨hl, hr, hlk, hrk⟩ := ho
    rw [keys, List.pairwise_append]
    refine ⟨ihl hl, List.pairwise_cons.mpr ⟨hrk, ihr hr⟩, ?_⟩
    intro a ha b hb
    rcases List.mem_cons.mp hb with rfl | hb
    · exact hlk a ha
    · exact (hlk a ha).trans (hrk b hb)

theorem filter_inRange_eq_nil_of_lt (lo hi : K) (t : Tree K V)
    (h : ∀ x ∈ t.keys, x < lo) : inRange lo hi t = [] := by
  rw [inRange, List.filter_eq_nil_iff]
  rintro ⟨k, v⟩ hkv
  have := h k (mem_keys_of_mem_toList t k v hkv)
  simp [not_le.mpr this]

theorem filter_inRange_eq_nil_of_gt (lo hi : K) (t : Tree K V)
    (h : ∀ x ∈ t.keys, hi < x) : inRange lo hi t = [] := by
  rw [inRange, List.filter_eq_nil_iff]
  rintro ⟨k, v⟩ hkv
  have := h k (mem_keys_of_mem_toList t k v hkv)
  simp [not_le.mpr this]

/-- With a visitor that leaves the values as they are, `rangeApply` leaves the tree as it
is and folds the visitor over the entries with key in `[lo, hi]`, in ascending key order. -/
theorem rangeApply_readonly (lo hi : K) (f : K → V → σ → V × σ)
    (hf : ∀ k v s, (f k v s).1 = v) (t : Tree K V) (ho : t.Ordered) (s : σ) :
    t.rangeApply lo hi f s
      = (t, (inRange lo hi t).foldl (fun acc kv => (f kv.1 kv.2 acc).2) s) := by
  induction t generalizing s with
  | nil => rfl
  | node l key val r ihl ihr =>
    obtain ⟨hl, hr, hlk, hrk⟩ := ho
    have hsplit : inRange lo hi (node l key val r)
        = inRange lo hi l ++ ((if lo ≤ key ∧ key ≤ hi then [(key, val)] else [])
            ++ inRange lo hi r) := by
      simp only [inRange, toList, List.filter_append, List.filter_cons]
      by_cases hc : lo ≤ key ∧ key ≤ hi
      · simp [hc]
      · simp [hc]
    rw [hsplit, List.foldl_append, List.foldl_append]
    simp only [rangeApply]
    have hL : (if lo < key then l.rangeApply lo hi f s else (l, s))
        = (l, (inRange lo hi l).foldl (fun acc kv => (f kv.1 kv.2 acc).2) s) := by
      by_cases hc : lo < key
      · rw [if_pos hc, ihl hl]
      · rw [if_neg hc, filter_inRange_eq_nil_of_lt lo hi l
          (fun x hx => lt_of_lt_of_le (hlk x hx) (not_lt.mp hc))]
        rfl
    rw [hL]
    simp only []
    generalize (inRange lo hi l).foldl (fun acc kv => (f kv.1 kv.2 acc).2) s = s1
    have hV : (if lo ≤ key ∧ key ≤ hi then f key val s1 else (val, s1))
        = (val, (if lo ≤ key ∧ key ≤ hi then [(key, val)] else []).foldl
            (fun acc kv => (f kv.1 kv.2 acc).2) s1) := by
      by_cases hc : lo ≤ key ∧ key ≤ hi
      · rw [if_pos hc, if_pos hc]
        exact Prod.ext (hf key val s1) rfl
      · rw [if_neg hc, if_neg hc]
        rfl
    rw [hV]
    simp only []
    generalize (if lo ≤ key ∧ key ≤ hi then [(key, val)] else []).foldl
      (fun acc kv => (f kv.1 kv.2 acc).2) s1 = s2
    by_cases hc : key < hi
    · rw [if_pos hc, ihr hr]
    · rw [if_neg hc, filter_inRange_eq_nil_of_gt lo hi r
        (fun x hx => lt_of_le_of_lt (not_lt.mp hc) (hrk x hx))]
      rfl

end Tree

namespace Engine

theorem insertRecord_fst (e : Engine) (r : Record) : (e.insertRecord r).1 = e.heap.length := by
  cases h : (e.lastIndex.find (toLower r.last)).1 <;> simp only [insertRecord, h]

theorem insertRecord_heap (e : Engine) (r : Record) :
    (e.insertRecord r).2.heap = e.heap ++ [r] := by
  cases h : (e.lastIndex.find (toLower r.last)).1 <;> simp only [insertRecord, h]

theorem insertRecord_idRoot (e : Engine) (r : Record) :
    (e.insertRecord r).2.idIndex.root = e.idIndex.root.insert r.id (e.heap.length : Int) := by
  cases h : (e.lastIndex.find (toLower r.last)).1 <;> simp only [insertRecord, h, BST.insert]

theorem insertRecord_lastRoot (e : Engine) (r : Record) :
    (e.insertRecord r).2.lastIndex.root =
      match e.lastIndex.root.find (toLower r.last) with
      | some vec => e.lastIndex.root.store (toLower r.last) (vec ++ [(e.heap.length : Int)])
      | none => e.lastIndex.root.insert (toLower r.last) [(e.heap.length : Int)] := by
  have hf : (e.lastIndex.find (toLower r.last)).1 = e.lastIndex.root.find (toLower r.last) := rfl
  cases h : e.lastIndex.root.find (toLower r.last) <;>
    simp only [insertRecord, hf, h, BST.insert, BST.store, BST.find]

theorem insertRecord_lastFind (e : Engine) (r : Record) (key : Str) :
    (e.insertRecord r).2.lastIndex.root.find key =
      if key = toLower r.last then
        some ((e.lastIndex.root.find key).getD [] ++ [(e.heap.length : Int)])
      else e.lastIndex.root.find key := by
  rw [insertRecord_lastRoot]
  cases h : e.lastIndex.root.find (toLower r.last) with
  | none =>
    simp only [Tree.find_insert]
    by_cases hk : key = toLower r.last
    · simp [hk, h]
    · simp [hk]
  | some vec =>
    simp only [Tree.find_store]
    by_cases hk : key = toLower r.last
    · simp [hk, h]
    · simp [hk]

theorem insertRecord_lastOrdered (e : Engine) (r : Record) (h : e.lastIndex.root.Ordered) :
    (e.insertRecord r).2.lastIndex.root.Ordered := by
  rw [insertRecord_lastRoot]
  split
  · exact Tree.ordered_store _ _ _ h
  · exact Tree.ordered_insert _ _ _ h

theorem isLive_iff (heap : List Record) (rid : Int) :
    isLive heap rid = true ↔
      0 ≤ rid ∧ rid < heap.length ∧ ∃ r, heap[rid.toNat]? = some r ∧ r.deleted = false := by
  unfold isLive
  cases h : heap[rid.toNat]? with
  | none => simp
  | some r => simp

theorem deleteById_fail (e : Engine) (id : Int) (h : (e.deleteById id).1 = false) :
    (e.deleteById id).2.heap = e.heap ∧ (e.deleteById id).2.idIndex.root = e.idIndex.root
      ∧ (e.deleteById id).2.lastIndex.root = e.lastIndex.root := by
  unfold deleteById at h ⊢
  have hf : (e.idIndex.find id).1 = e.idIndex.root.find id := rfl
  simp only [hf] at h ⊢
  cases h1 : e.idIndex.root.find id with
  | none => exact ⟨rfl, rfl, rfl⟩
  | some rid =>
    simp only [h1] at h ⊢
    by_cases h2 : rid < 0 ∨ rid ≥ e.heap.length
    · simp [h2, BST.find]
    · simp only [h2, if_false] at h ⊢
      cases h3 : e.heap[rid.toNat]? with
      | none => exact ⟨rfl, rfl, rfl⟩
      | some r =>
        simp only [h3] at h ⊢
        by_cases h4 : r.deleted = true
        · simp [h4, BST.find]
        · simp only [h4, if_false] at h
          have hf2 : (e.lastIndex.find (toLower r.last)).1
              = e.lastIndex.root.find (toLower r.last) := rfl
          simp only [hf2] at h
          cases h5 : e.lastIndex.root.find (toLower r.last) <;> simp [h5] at h

theorem deleteById_success (e : Engine) (id rid : Int) (r : Record)
    (hf : e.idIndex.root.find id = some rid) (h0 : 0 ≤ rid) (h1 : rid < e.heap.length)
    (hr : e.heap[rid.toNat]? = some r) (hd : r.deleted = false) :
    (e.deleteById id).1 = true
      ∧ (e.deleteById id).2.heap = e.heap.set rid.toNat { r with deleted := true }
      ∧ (e.deleteById id).2.idIndex.root = e.idIndex.root.erase id
      ∧ (e.deleteById id).2.lastIndex.root =
          match e.lastIndex.root.find (toLower r.last) with
          | some vec => e.lastIndex.root.store (toLower r.last) (vec.filter (· ≠ rid))
          | none => e.lastIndex.root := by
  have hf1 : (e.idIndex.find id).1 = e.idIndex.root.find id := rfl
  have hf2 : (e.lastIndex.find (toLower r.last)).1
      = e.lastIndex.root.find (toLower r.last) := rfl
  have hb : ¬ (rid < 0 ∨ rid ≥ e.heap.length) := by omega
  cases h5 : e.lastIndex.root.find (toLower r.last) <;>
    simp [deleteById, hf1, hf, hb, hr, hd, hf2, h5, BST.erase, BST.store, BST.find]

theorem deleteById_eq_true_iff (e : Engine) (id : Int) :
    (e.deleteById id).1 = true ↔
      ∃ rid, e.idIndex.root.find id = some rid ∧ isLive e.heap rid = true := by
  constructor
  · intro h
    unfold deleteById at h
    have hf : (e.idIndex.find id).1 = e.idIndex.root.find id := rfl
    simp only [hf] at h
    cases h1 : e.idIndex.root.find id with
    | none => simp [h1] at h
    | some rid =>
      simp only [h1] at h
      by_cases h2 : rid < 0 ∨ rid ≥ e.heap.length
      · simp [h2] at h
      · simp only [h2, if_false] at h
        cases h3 : e.heap[rid.toNat]? with
        | none => simp [h3] at h
        | some r =>
          simp only [h3] at h
          by_cases h4 : r.deleted = true
          · simp [h4] at h
          · refine ⟨rid, rfl, (isLive_iff _ _).mpr ⟨by omega, by omega, r, h3, by simpa using h4⟩⟩
  · rintro ⟨rid, hf, hl⟩
    obtain ⟨h0, h1, r, hr, hd⟩ := (isLive_iff _ _).mp hl
    exact (deleteById_success e id rid r hf h0 h1 hr hd).1

theorem findById_fst (e : Engine) (id : Int) :
    (e.findById id).1 =
      match e.idIndex.root.find id with
      | none => none
      | some rid => if isLive e.heap rid then some rid.toNat else none := by
  have hf : (e.idIndex.resetMetrics.find id).1 = e.idIndex.root.find id := rfl
  unfold findById
  simp only [hf]
  cases h : e.idIndex.root.find id with
  | none => rfl
  | some rid =>
    simp only []
    split_ifs <;> rfl

theorem findById_eq_some_iff (e : Engine) (id : Int) (p : Nat) :
    (e.findById id).1 = some p ↔
      ∃ rid, e.idIndex.root.find id = some rid ∧ isLive e.heap rid = true ∧ rid.toNat = p := by
  rw [findById_fst]
  cases h : e.idIndex.root.find id with
  | none => simp
  | some rid =>
    by_cases hl : isLive e.heap rid = true
    · simp [hl]
    · simp [hl]

theorem findById_eq_none_iff (e : Engine) (id : Int) :
    (e.findById id).1 = none ↔
      ∀ rid, e.idIndex.root.find id = some rid → isLive e.heap rid = false := by
  rw [findById_fst]
  cases h : e.idIndex.root.find id with
  | none => simp
  | some rid =>
    by_cases hl : isLive e.heap rid = true
    · simp [hl]
    · simp [hl]

/-- The vector returned by `rangeById`, for a search tree. -/
theorem rangeById_fst (e : Engine) (ho : e.idIndex.root.Ordered) (lo hi : Int) :
    (e.rangeById lo hi).1 =
      (((Tree.inRange lo hi e.idIndex.root).map Prod.snd).filter (isLive e.heap)).map Int.toNat := by
  unfold rangeById BST.rangeApply BST.resetMetrics
  simp only []
  rw [Tree.rangeApply_readonly lo hi (rangeVisitor e.heap) (fun _ _ _ => rfl) _ ho]
  simp only []
  suffices h : ∀ (l : List (Int × Int)) (acc : List Nat),
      l.foldl (fun acc kv => (rangeVisitor e.heap kv.1 kv.2 acc).2) acc
        = acc ++ ((l.map Prod.snd).filter (isLive e.heap)).map Int.toNat by
    simpa using h _ []
  intro l
  induction l with
  | nil => simp
  | cons a l ih =>
    intro acc
    rw [List.foldl_cons, ih]
    by_cases hl : isLive e.heap a.2 = true
    · simp [rangeVisitor, hl]
    · simp [rangeVisitor, hl]

/-- The vector returned by `prefixByLast`, for a search tree. -/
theorem prefixByLast_fst (e : Engine) (ho : e.lastIndex.root.Ordered) (pfx : Str) :
    (e.prefixByLast pfx).1 =
      ((Tree.inRange (toLower pfx) ((toLower pfx).push_back 255) e.lastIndex.root).filter
        (fun kv => startsWith kv.1 (toLower pfx))).flatMap
        (fun kv => (kv.2.filter (isLive e.heap)).map Int.toNat) := by
  unfold prefixByLast BST.rangeApply BST.resetMetrics
  simp only []
  rw [Tree.rangeApply_readonly _ _ (prefixVisitor e.heap (toLower pfx))
    (fun _ _ _ => by unfold prefixVisitor; split_ifs <;> rfl) _ ho]
  simp only []
  suffices h : ∀ (l : List (Str × List Int)) (acc : List Nat),
      l.foldl (fun acc kv => (prefixVisitor e.heap (toLower pfx) kv.1 kv.2 acc).2) acc
        = acc ++ (l.filter (fun kv => startsWith kv.1 (toLower pfx))).flatMap
            (fun kv => (kv.2.filter (isLive e.heap)).map Int.toNat) by
    simpa using h _ []
  intro l
  induction l with
  | nil => simp
  | cons a l ih =>
    intro acc
    rw [List.foldl_cons, ih]
    by_cases hl : startsWith a.1 (toLower pfx) = true
    · simp [prefixVisitor, hl]
    · simp [prefixVisitor, hl]

theorem inv_empty : Inv Engine.empty := by
  refine ⟨trivial, trivial, ?_, ?_, ?_⟩
  · intro k rid h; simp [Engine.empty, BST.empty, Tree.find] at h
  · intro k vec h; simp [Engine.empty, BST.empty, Tree.find] at h
  · intro p r h; simp [Engine.empty] at h

theorem inv_insertRecord (e : Engine) (r : Record) (h : Inv e) : Inv (e.insertRecord r).2 := by
  refine ⟨?_, insertRecord_lastOrdered e r h.lastOrdered, ?_, ?_, ?_⟩
  · rw [insertRecord_idRoot]
    exact Tree.ordered_insert _ _ _ h.idOrdered
  · intro k rid hf
    rw [insertRecord_idRoot, Tree.find_insert] at hf
    rw [insertRecord_heap, List.length_append, List.length_singleton]
    by_cases hk : k = r.id
    · rw [if_pos hk, Option.some.injEq] at hf
      subst hf
      refine ⟨by omega, by push_cast; omega, r, ?_, hk.symm⟩
      simp
    · rw [if_neg hk] at hf
      obtain ⟨h0, h1, r0, hr0, hid⟩ := h.idBound k rid hf
      refine ⟨h0, by push_cast; omega, r0, ?_, hid⟩
      rw [List.getElem?_append_left (by omega)]
      exact hr0
  · intro key vec hf
    rw [insertRecord_lastFind] at hf
    rw [insertRecord_heap, List.length_append, List.length_singleton]
    by_cases hk : key = toLower r.last
    · rw [if_pos hk, Option.some.injEq] at hf
      subst hf
      have hold : ∀ p ∈ (e.lastIndex.root.find key).getD [],
          0 ≤ p ∧ p < e.heap.length ∧ ∃ r, e.heap[p.toNat]? = some r ∧ toLower r.last = key := by
        intro p hp
        cases hv : e.lastIndex.root.find key with
        | none => simp [hv] at hp
        | some v =>
          rw [hv] at hp
          exact (h.lastBound key v hv).2 p hp
      have holdp : ((e.lastIndex.root.find key).getD []).Pairwise (· < ·) := by
        cases hv : e.lastIndex.root.find key with
        | none => simp
        | some v => exact (h.lastBound key v hv).1
      constructor
      · rw [List.pairwise_append]
        refine ⟨holdp, by simp, ?_⟩
        intro a ha b hb
        rw [List.mem_singleton] at hb
        subst hb
        exact (hold a ha).2.1
      · intro p hp
        rcases List.mem_append.mp hp with hp | hp
        · obtain ⟨h0, h1, r0, hr0, hl⟩ := hold p hp
          refine ⟨h0, by push_cast; omega, r0, ?_, hl⟩
          rw [List.getElem?_append_left (by omega)]
          exact hr0
        · rw [List.mem_singleton] at hp
          subst hp
          refine ⟨by omega, by push_cast; omega, r, ?_, hk.symm⟩
          simp
    · rw [if_neg hk] at hf
      obtain ⟨hp, hb⟩ := h.lastBound key vec hf
      refine ⟨hp, ?_⟩
      intro p hp
      obtain ⟨h0, h1, r0, hr0, hl⟩ := hb p hp
      refine ⟨h0, by push_cast; omega, r0, ?_, hl⟩
      rw [List.getElem?_append_left (by omega)]
      exact hr0
  · intro p r0 hr0 hd
    rw [insertRecord_heap] at hr0
    rw [insertRecord_lastFind]
    by_cases hp : p < e.heap.length
    · rw [List.getElem?_append_left hp] at hr0
      obtain ⟨vec, hv, hm⟩ := h.lastComplete p r0 hr0 hd
      by_cases hk : toLower r0.last = toLower r.last
      · rw [if_pos hk]
        exact ⟨_, rfl, by simp [hv, hm]⟩
      · rw [if_neg hk]
        exact ⟨vec, hv, hm⟩
    · have hlen : p < (e.heap ++ [r]).length := (List.getElem?_eq_some.mp hr0).1
      rw [List.length_append, List.length_singleton] at hlen
      have hpe : p = e.heap.length := by omega
      subst hpe
      rw [List.getElem?_append_right (le_refl _)] at hr0
      simp only [Nat.sub_self, List.getElem?_cons_zero, Option.some.injEq] at hr0
      subst hr0
      rw [if_pos rfl]
      exact ⟨_, rfl, by simp⟩

/-- The invariant speaks of the store and the two trees only, not of the counters. -/
theorem inv_congr (e e2 : Engine) (h : Inv e) (hh : e2.heap = e.heap)
    (hi : e2.idIndex.root = e.idIndex.root) (hl : e2.lastIndex.root = e.lastIndex.root) :
    Inv e2 := by
  refine ⟨?_, ?_, ?_, ?_, ?_⟩
  · rw [hi]; exact h.idOrdered
  · rw [hl]; exact h.lastOrdered
  · rw [hi, hh]; exact h.idBound
  · rw [hl, hh]; exact h.lastBound
  · rw [hl, hh]; exact h.lastComplete

theorem deleteById_lastFind (e : Engine) (id rid : Int) (r : Record)
    (hf : e.idIndex.root.find id = some rid) (h0 : 0 ≤ rid) (h1 : rid < e.heap.length)
    (hr : e.heap[rid.toNat]? = some r) (hd : r.deleted = false) (key : Str) :
    (e.deleteById id).2.lastIndex.root.find key =
      if key = toLower r.last then
        (e.lastIndex.root.find key).map (fun vec => vec.filter (· ≠ rid))
      else e.lastIndex.root.find key := by
  rw [(deleteById_success e id rid r hf h0 h1 hr hd).2.2.2]
  cases hv : e.lastIndex.root.find (toLower r.last) with
  | none =>
    simp only []
    by_cases hk : key = toLower r.last
    · simp [hk, hv]
    · simp [hk]
  | some vec =>
    simp only [Tree.find_store]
    by_cases hk : key = toLower r.last
    · simp [hk, hv]
    · simp [hk]

/-- Marking one record deleted keeps every record's id and last name. -/
theorem getElem?_set_deleted (heap : List Record) (i : Nat) (r : Record)
    (hr : heap[i]? = some r) (p : Nat) (r0 : Record) (h : heap[p]? = some r0) :
    ∃ r1, (heap.set i { r with deleted := true })[p]? = some r1
      ∧ r1.id = r0.id ∧ r1.last = r0.last ∧ (p ≠ i → r1 = r0) ∧ (p = i → r1.deleted = true) := by
  rw [List.getElem?_set]
  by_cases hp : i = p
  · subst hp
    have hlt : i < heap.length := (List.getElem?_eq_some.mp hr).1
    rw [hr, Option.some.injEq] at h
    subst h
    rw [if_pos rfl, if_pos hlt]
    exact ⟨_, rfl, rfl, rfl, fun hne => absurd rfl hne, fun _ => rfl⟩
  · rw [if_neg hp]
    exact ⟨r0, h, rfl, rfl, fun _ => rfl, fun he => absurd he.symm hp⟩

theorem inv_deleteById (e : Engine) (id : Int) (h : Inv e) : Inv (e.deleteById id).2 := by
  cases hres : (e.deleteById id).1 with
  | false =>
    obtain ⟨h1, h2, h3⟩ := deleteById_fail e id hres
    exact inv_congr e _ h h1 h2 h3
  | true =>
    obtain ⟨rid, hf, hl⟩ := (deleteById_eq_true_iff e id).mp hres
    obtain ⟨h0, h1, r, hr, hd⟩ := (isLive_iff _ _).mp hl
    obtain ⟨_, hheap, hid, hlast⟩ := deleteById_success e id rid r hf h0 h1 hr hd
    have hlf := deleteById_lastFind e id rid r hf h0 h1 hr hd
    refine ⟨?_, ?_, ?_, ?_, ?_⟩
    · rw [hid]; exact Tree.ordered_erase _ _ h.idOrdered
    · rw [hlast]
      split
      · exact Tree.ordered_store _ _ _ h.lastOrdered
      · exact h.lastOrdered
    · intro k rid2 hf2
      rw [hid, Tree.find_erase _ _ _ h.idOrdered] at hf2
      by_cases hk : k = id
      · simp [hk] at hf2
      · rw [if_neg hk] at hf2
        obtain ⟨g0, g1, r0, hr0, hid0⟩ := h.idBound k rid2 hf2
        obtain ⟨r1, hr1, hi1, _⟩ := getElem?_set_deleted e.heap rid.toNat r hr _ r0 hr0
        rw [hheap, List.length_set]
        exact ⟨g0, g1, r1, hr1, hi1.trans hid0⟩
    · intro key vec hv
      rw [hlf] at hv
      rw [hheap, List.length_set]
      have key_step : ∀ v0, e.lastIndex.root.find key = some v0 → ∀ p ∈ v0,
          0 ≤ p ∧ p < e.heap.length ∧
            ∃ r1, (e.heap.set rid.toNat { r with deleted := true })[p.toNat]? = some r1
              ∧ toLower r1.last = key := by
        intro v0 hv0 p hp
        obtain ⟨g0, g1, r0, hr0, hl0⟩ := (h.lastBound key v0 hv0).2 p hp
        obtain ⟨r1, hr1, _, hl1, _⟩ := getElem?_set_deleted e.heap rid.toNat r hr _ r0 hr0
        exact ⟨g0, g1, r1, hr1, by rw [hl1]; exact hl0⟩
      by_cases hk : key = toLower r.last
      · rw [if_pos hk] at hv
        cases hv0 : e.lastIndex.root.find key with
        | none => simp [hv0] at hv
        | some v0 =>
          rw [hv0, Option.map_some', Option.some.injEq] at hv
          subst hv
          refine ⟨List.Pairwise.filter _ (h.lastBound key v0 hv0).1, ?_⟩
          intro p hp
          exact key_step v0 hv0 p (List.mem_filter.mp hp).1
      · rw [if_neg hk] at hv
        exact ⟨(h.lastBound key vec hv).1, key_step vec hv⟩
    · intro p r0 hr0 hd0
      rw [hheap] at hr0
      have hpne : p ≠ rid.toNat := by
        intro hp
        subst hp
        rw [List.getElem?_set_self (List.getElem?_eq_some.mp hr).1, Option.some.injEq] at hr0
        subst hr0
        simp at hd0
      rw [List.getElem?_set_ne (Ne.symm hpne)] at hr0
      obtain ⟨vec, hv, hm⟩ := h.lastComplete p r0 hr0 hd0
      rw [hlf]
      by_cases hk : toLower r0.last = toLower r.last
      · rw [if_pos hk, hv]
        refine ⟨_, rfl, List.mem_filter.mpr ⟨hm, ?_⟩⟩
        have : (p : Int) ≠ rid := by omega
        simpa using this
      · rw [if_neg hk]
        exact ⟨vec, hv, hm⟩

theorem inv_step (e : Engine) (op : Op) (h : Inv e) : Inv (step e op) := by
  cases op with
  | insert r => exact inv_insertRecord e r h
  | delete id => exact inv_deleteById e id h

theorem inv_foldl (ops : List Op) (e : Engine) (h : Inv e) : Inv (ops.foldl step e) := by
  induction ops generalizing e with
  | nil => exact h
  | cons op ops ih => exact ih _ (inv_step e op h)

end Engine

/-- Every state reached from the empty engine satisfies the invariant. -/
theorem inv_run (ops : List Op) : Engine.Inv (run ops) :=
  Engine.inv_foldl ops _ Engine.inv_empty

namespace Engine

theorem invU_congr (e e2 : Engine) (h : InvU e) (hh : e2.heap = e.heap)
    (hi : e2.idIndex.root = e.idIndex.root) : InvU e2 := by
  refine ⟨?_, ?_⟩
  · rw [hi, hh]; exact h.idLive
  · rw [hi, hh]; exact h.idComplete

theorem invU_empty : InvU Engine.empty := by
  refine ⟨?_, ?_⟩
  · intro k rid r h; simp [Engine.empty, BST.empty, Tree.find] at h
  · intro p r h; simp [Engine.empty] at h

theorem hasLiveId_eq_false (heap : List Record) (id : Int) (h : hasLiveId heap id = false)
    (p : Nat) (r : Record) (hr : heap[p]? = some r) (hd : r.deleted = false) : r.id ≠ id := by
  intro hid
  have hm : r ∈ heap := List.mem_iff_getElem?.mpr ⟨p, hr⟩
  have : hasLiveId heap id = true := by
    unfold hasLiveId
    rw [List.any_eq_true]
    exact ⟨r, hm, by simp [hd, hid]⟩
  rw [h] at this
  exact absurd this (by simp)

theorem invU_insertRecord (e : Engine) (r : Record) (h : Inv e) (hu : InvU e)
    (hd : r.deleted = false) (hfresh : hasLiveId e.heap r.id = false) :
    InvU (e.insertRecord r).2 := by
  refine ⟨?_, ?_⟩
  · intro k rid r0 hf hr0
    rw [insertRecord_idRoot, Tree.find_insert] at hf
    rw [insertRecord_heap] at hr0
    by_cases hk : k = r.id
    · rw [if_pos hk, Option.some.injEq] at hf
      subst hf
      simp only [Int.toNat_ofNat, List.getElem?_append_right (le_refl _), Nat.sub_self,
        List.getElem?_cons_zero, Option.some.injEq] at hr0
      subst hr0
      exact hd
    · rw [if_neg hk] at hf
      obtain ⟨h0, h1, _⟩ := h.idBound k rid hf
      rw [List.getElem?_append_left (by omega)] at hr0
      exact hu.idLive k rid r0 hf hr0
  · intro p r0 hr0 hd0
    rw [insertRecord_heap] at hr0
    rw [insertRecord_idRoot, Tree.find_insert]
    by_cases hp : p < e.heap.length
    · rw [List.getElem?_append_left hp] at hr0
      rw [if_neg (hasLiveId_eq_false e.heap r.id hfresh p r0 hr0 hd0)]
      exact hu.idComplete p r0 hr0 hd0
    · have hlen : p < (e.heap ++ [r]).length := (List.getElem?_eq_some.mp hr0).1
      rw [List.length_append, List.length_singleton] at hlen
      have hpe : p = e.heap.length := by omega
      subst hpe
      rw [List.getElem?_append_right (le_refl _)] at hr0
      simp only [Nat.sub_self, List.getElem?_cons_zero, Option.some.injEq] at hr0
      subst hr0
      rw [if_pos rfl]

theorem invU_deleteById (e : Engine) (id : Int) (h : Inv e) (hu : InvU e) :
    InvU (e.deleteById id).2 := by
  cases hres : (e.deleteById id).1 with
  | false =>
    obtain ⟨h1, h2, _⟩ := deleteById_fail e id hres
    exact invU_congr e _ hu h1 h2
  | true =>
    obtain ⟨rid, hf, hl⟩ := (deleteById_eq_true_iff e id).mp hres
    obtain ⟨h0, h1, r, hr, hd⟩ := (isLive_iff _ _).mp hl
    obtain ⟨_, hheap, hid, _⟩ := deleteById_success e id rid r hf h0 h1 hr hd
    refine ⟨?_, ?_⟩
    · intro k rid2 r0 hf2 hr0
      rw [hid, Tree.find_erase _ _ _ h.idOrdered] at hf2
      rw [hheap] at hr0
      by_cases hk : k = id
      · simp [hk] at hf2
      · rw [if_neg hk] at hf2
        obtain ⟨g0, g1, r2, hr2, hid2⟩ := h.idBound k rid2 hf2
        obtain ⟨_, _, r3, hr3, hid3⟩ := h.idBound id rid hf
        have hne : rid.toNat ≠ rid2.toNat := by
          intro heq
          rw [heq, hr2, Option.some.injEq] at hr3
          subst hr3
          exact hk (hid2.symm.trans hid3)
        rw [List.getElem?_set_ne hne] at hr0
        exact hu.idLive k rid2 r0 hf2 hr0
    · intro p r0 hr0 hd0
      rw [hheap] at hr0
      have hpne : p ≠ rid.toNat := by
        intro hp
        subst hp
        rw [List.getElem?_set_self (List.getElem?_eq_some.mp hr).1, Option.some.injEq] at hr0
        subst hr0
        simp at hd0
      rw [List.getElem?_set_ne (Ne.symm hpne)] at hr0
      have hold := hu.idComplete p r0 hr0 hd0
      rw [hid, Tree.find_erase _ _ _ h.idOrdered]
      by_cases hk : r0.id = id
      · rw [hk, hf, Option.some.injEq] at hold
        omega
      · rw [if_neg hk]
        exact hold

theorem invU_foldl (ops : List Op) (e : Engine) (h : Inv e) (hu : InvU e)
    (hok : runOk e ops = true) : InvU (ops.foldl step e) := by
  induction ops generalizing e with
  | nil => exact hu
  | cons op ops ih =>
    rw [runOk, Bool.and_eq_true] at hok
    refine ih _ (inv_step e op h) ?_ hok.2
    cases op with
    | insert r =>
      have h1 := hok.1
      simp only [stepOk, Bool.and_eq_true, Bool.not_eq_true'] at h1
      exact invU_insertRecord e r h hu h1.1 h1.2
    | delete id => exact invU_deleteById e id h hu

end Engine

theorem invU_run (ops : List Op) (hok : runOk Engine.empty ops = true) :
    Engine.InvU (run ops) :=
  Engine.invU_foldl ops _ Engine.inv_empty Engine.invU_empty hok

namespace Engine

theorem wf_deleteById (e : Engine) (id : Int) (h : e.WF) : (e.deleteById id).2.WF := by
  cases hres : (e.deleteById id).1 with
  | false =>
    obtain ⟨_, h2, h3⟩ := deleteById_fail e id hres
    exact ⟨by rw [h2]; exact h.1, by rw [h3]; exact h.2⟩
  | true =>
    obtain ⟨rid, hf, hl⟩ := (deleteById_eq_true_iff e id).mp hres
    obtain ⟨h0, h1, r, hr, hd⟩ := (isLive_iff _ _).mp hl
    obtain ⟨_, _, hid, hlast⟩ := deleteById_success e id rid r hf h0 h1 hr hd
    refine ⟨by rw [hid]; exact Tree.ordered_erase _ _ h.1, ?_⟩
    rw [hlast]
    split
    · exact Tree.ordered_store _ _ _ h.2
    · exact h.2

theorem wf_insertRecord (e : Engine) (r : Record) (h : e.WF) : (e.insertRecord r).2.WF :=
  ⟨by rw [insertRecord_idRoot]; exact Tree.ordered_insert _ _ _ h.1,
    insertRecord_lastOrdered e r h.2⟩

/-- Every position returned by `rangeById` holds a record that is not deleted. -/
theorem live_of_mem_rangeById (e : Engine) (h : e.WF) (lo hi : Int) (p : Nat)
    (hp : p ∈ (e.rangeById lo hi).1) : ∃ r, e.heap[p]? = some r ∧ r.deleted = false := by
  rw [rangeById_fst e h.1, List.mem_map] at hp
  obtain ⟨rid, hrid, rfl⟩ := hp
  obtain ⟨_, _, r, hr, hd⟩ := (isLive_iff _ _).mp (List.mem_filter.mp hrid).2
  exact ⟨r, hr, hd⟩

/-- Every position returned by `prefixByLast` holds a record that is not deleted. -/
theorem live_of_mem_prefixByLast (e : Engine) (h : e.WF) (pfx : Str) (p : Nat)
    (hp : p ∈ (e.prefixByLast pfx).1) : ∃ r, e.heap[p]? = some r ∧ r.deleted = false := by
  rw [prefixByLast_fst e h.2, List.mem_flatMap] at hp
  obtain ⟨kv, _, hkv⟩ := hp
  rw [List.mem_map] at hkv
  obtain ⟨rid, hrid, rfl⟩ := hkv
  obtain ⟨_, _, r, hr, hd⟩ := (isLive_iff _ _).mp (List.mem_filter.mp hrid).2
  exact ⟨r, hr, hd⟩

/-- C1: for every engine state and every id, after `deleteById(id)`, whatever it
returned, `findById(id)` returns the null pointer. -/
theorem findById_deleteById_self (e : Engine) (hwf : e.WF) (id : Int) :
    ((e.deleteById id).2.findById id).1 = none := by
  rw [findById_eq_none_iff]
  intro rid hf
  cases hres : (e.deleteById id).1 with
  | false =>
    obtain ⟨h1, h2, _⟩ := deleteById_fail e id hres
    rw [h2] at hf
    rw [h1]
    cases hl : isLive e.heap rid with
    | false => rfl
    | true =>
      have := (deleteById_eq_true_iff e id).mpr ⟨rid, hf, hl⟩
      rw [hres] at this
      exact absurd this (by simp)
  | true =>
    obtain ⟨rid0, hf0, hl⟩ := (deleteById_eq_true_iff e id).mp hres
    obtain ⟨h0, h1, r, hr, hd⟩ := (isLive_iff _ _).mp hl
    obtain ⟨_, _, hid, _⟩ := deleteById_success e id rid0 r hf0 h0 h1 hr hd
    rw [hid, Tree.find_erase _ _ _ hwf.1, if_pos rfl] at hf
    exact absurd hf (by simp)

theorem findById_deleteById_self_witness :
    scenario.WF ∧ ((scenario.deleteById 2).2.findById 2).1 = none :=
  ⟨by decide, findById_deleteById_self scenario (by decide) 2⟩

/-- After a successful `deleteById(id)` that resolved to `p`, the record at `p` is marked
deleted. -/
theorem deleteById_marks (e : Engine) (id p : Int) (hres : (e.deleteById id).1 = true)
    (hp : e.idIndex.root.find id = some p) :
    ∃ r, (e.deleteById id).2.heap[p.toNat]? = some r ∧ r.deleted = true := by
  obtain ⟨rid, hf, hl⟩ := (deleteById_eq_true_iff e id).mp hres
  rw [hp, Option.some.injEq] at hf
  subst hf
  obtain ⟨h0, h1, r, hr, hd⟩ := (isLive_iff _ _).mp hl
  obtain ⟨_, hheap, _, _⟩ := deleteById_success e id p r hp h0 h1 hr hd
  rw [hheap, List.getElem?_set_self (List.getElem?_eq_some.mp hr).1]
  exact ⟨_, rfl, rfl⟩

/-- C2: when `deleteById(id)` returns true and resolved `id` to the store position `p`,
no later `rangeById(lo, hi)` and no later `prefixByLast(prefix)` returns the record at
position `p`. -/
theorem deleted_position_not_returned (e : Engine) (hwf : e.WF) (id p : Int)
    (hres : (e.deleteById id).1 = true) (hp : e.idIndex.root.find id = some p) :
    (∀ lo hi, p.toNat ∉ ((e.deleteById id).2.rangeById lo hi).1)
      ∧ (∀ pfx, p.toNat ∉ ((e.deleteById id).2.prefixByLast pfx).1) := by
  obtain ⟨r, hr, hd⟩ := deleteById_marks e id p hres hp
  have hwf2 := wf_deleteById e id hwf
  constructor
  · intro lo hi hmem
    obtain ⟨r2, hr2, hd2⟩ := live_of_mem_rangeById _ hwf2 lo hi _ hmem
    rw [hr, Option.some.injEq] at hr2
    subst hr2
    rw [hd] at hd2
    exact absurd hd2 (by simp)
  · intro pfx hmem
    obtain ⟨r2, hr2, hd2⟩ := live_of_mem_prefixByLast _ hwf2 pfx _ hmem
    rw [hr, Option.some.injEq] at hr2
    subst hr2
    rw [hd] at hd2
    exact absurd hd2 (by simp)

theorem deleted_position_not_returned_witness :
    scenario.WF ∧ (scenario.deleteById 2).1 = true ∧ scenario.idIndex.root.find 2 = some 1
      ∧ (∀ lo hi, (1 : Int).toNat ∉ ((scenario.deleteById 2).2.rangeById lo hi).1)
      ∧ (∀ pfx, (1 : Int).toNat ∉ ((scenario.deleteById 2).2.prefixByLast pfx).1) :=
  ⟨by decide, by decide, by decide,
    deleted_position_not_returned scenario (by decide) 2 1 (by decide) (by decide)⟩

/-- C3, as stated, fails: in the state `aliased` the ids 1 and 2 differ, `findById(2)`
returns position 0 before `deleteById(1)` and the null pointer after it. -/
theorem findById_other_changed_aliased :
    aliased.WF ∧ (2 : Int) ≠ 1 ∧ (aliased.findById 2).1 = some 0
      ∧ ((aliased.deleteById 1).2.findById 2).1 = none := by
  decide

/-- C3, amended: in every engine state in which `idIndex` does not map `id` and `id2` to
the same position, `findById(id2)` for `id2` different from `id` returns the same position
after `deleteById(id)` as before, and the record at that position has the same field
values as before. -/
theorem findById_deleteById_other (e : Engine) (hwf : e.WF) (id id2 : Int) (hne : id2 ≠ id)
    (hinj : ∀ p, e.idIndex.root.find id = some p → e.idIndex.root.find id2 ≠ some p) :
    ((e.deleteById id).2.findById id2).1 = (e.findById id2).1
      ∧ ∀ q, (e.findById id2).1 = some q → (e.deleteById id).2.heap[q]? = e.heap[q]? := by
  cases hres : (e.deleteById id).1 with
  | false =>
    obtain ⟨h1, h2, _⟩ := deleteById_fail e id hres
    rw [findById_fst, findById_fst, h1, h2]
    exact ⟨rfl, fun _ _ => rfl⟩
  | true =>
    obtain ⟨rid, hf, hl⟩ := (deleteById_eq_true_iff e id).mp hres
    obtain ⟨h0, h1, r, hr, hd⟩ := (isLive_iff _ _).mp hl
    obtain ⟨_, hheap, hid, _⟩ := deleteById_success e id rid r hf h0 h1 hr hd
    have hkeep : ∀ rid2, e.idIndex.root.find id2 = some rid2 → 0 ≤ rid2 →
        (e.deleteById id).2.heap[rid2.toNat]? = e.heap[rid2.toNat]? := by
      intro rid2 hf2 hpos
      have hne2 : rid2 ≠ rid := fun hh => hinj rid hf (hh ▸ hf2)
      rw [hheap, List.getElem?_set_ne (by omega)]
    have hlive : ∀ rid2, e.idIndex.root.find id2 = some rid2 →
        isLive (e.deleteById id).2.heap rid2 = isLive e.heap rid2 := by
      intro rid2 hf2
      by_cases hpos : 0 ≤ rid2
      · have hk := hkeep rid2 hf2 hpos
        have hlen : (e.deleteById id).2.heap.length = e.heap.length := by
          rw [hheap, List.length_set]
        unfold isLive
        rw [hk, hlen]
      · unfold isLive
        simp [hpos]
    constructor
    · rw [findById_fst, findById_fst, hid, Tree.find_erase _ _ _ hwf.1, if_neg hne]
      cases hf2 : e.idIndex.root.find id2 with
      | none => rfl
      | some rid2 => simp only [hlive rid2 hf2]
    · intro q hq
      obtain ⟨rid2, hf2, hl2, rfl⟩ := (findById_eq_some_iff e id2 q).mp hq
      exact hkeep rid2 hf2 ((isLive_iff _ _).mp hl2).1

theorem findById_deleteById_other_witness :
    scenario.WF ∧ (1 : Int) ≠ 2
      ∧ (∀ p, scenario.idIndex.root.find 2 = some p → scenario.idIndex.root.find 1 ≠ some p)
      ∧ ((scenario.deleteById 2).2.findById 1).1 = (scenario.findById 1).1
      ∧ ∀ q, (scenario.findById 1).1 = some q →
          (scenario.deleteById 2).2.heap[q]? = scenario.heap[q]? :=
  have hinj : ∀ p, scenario.idIndex.root.find 2 = some p →
      scenario.idIndex.root.find 1 ≠ some p := by
    intro p hp
    have h2 : scenario.idIndex.root.find 2 = some 1 := by decide
    have h1 : scenario.idIndex.root.find 1 = some 0 := by decide
    rw [h2, Option.some.injEq] at hp
    subst hp
    rw [h1]
    decide
  ⟨by decide, by decide, hinj,
    findById_deleteById_other scenario (by decide) 2 1 (by decide) hinj⟩

/-- In every state reached from the empty engine, `idIndex` maps different ids to different
positions: the hypothesis of `findById_deleteById_other` holds there. -/
theorem idIndex_injective_run (ops : List Op) (id id2 : Int) (hne : id2 ≠ id) (p : Int)
    (h : (run ops).idIndex.root.find id = some p) : (run ops).idIndex.root.find id2 ≠ some p := by
  intro h2
  obtain ⟨_, _, r, hr, hid⟩ := (inv_run ops).idBound id p h
  obtain ⟨_, _, r2, hr2, hid2⟩ := (inv_run ops).idBound id2 p h2
  rw [hr, Option.some.injEq] at hr2
  subst hr2
  exact hne (hid2.symm.trans hid)

/-- C4: `deleteById(id)` returns false exactly when `id` is not a key of `idIndex`, or the
position it is mapped to is negative or not below the store length, or the record at that
position is already marked deleted; in every other case it returns true. -/
theorem deleteById_eq_false_iff (e : Engine) (hwf : e.WF) (id : Int) :
    (e.deleteById id).1 = false ↔
      (id ∉ e.idIndex.root.keys ∨
        ∃ rid, e.idIndex.root.find id = some rid ∧
          (rid < 0 ∨ (e.heap.length : Int) ≤ rid
            ∨ ∃ r, e.heap[rid.toNat]? = some r ∧ r.deleted = true)) := by
  rw [Tree.not_mem_keys_iff_find _ hwf.1, ← Bool.not_eq_true, deleteById_eq_true_iff]
  cases hf : e.idIndex.root.find id with
  | none => simp
  | some rid =>
    simp only [Option.some.injEq, exists_eq_left', isLive_iff]
    constructor
    · intro h
      right
      by_cases h0 : rid < 0
      · exact Or.inl h0
      · by_cases h1 : (e.heap.length : Int) ≤ rid
        · exact Or.inr (Or.inl h1)
        · have hlt : rid.toNat < e.heap.length := by omega
          refine Or.inr (Or.inr ⟨e.heap[rid.toNat], List.getElem?_eq_getElem hlt, ?_⟩)
          by_contra hd
          exact h ⟨by omega, by omega, _, List.getElem?_eq_getElem hlt, by simpa using hd⟩
    · rintro (h | h | h | ⟨r, hr, hd⟩) ⟨h0, h1, r2, hr2, hd2⟩
      · exact absurd h (by simp)
      · omega
      · omega
      · rw [hr, Option.some.injEq] at hr2
        subst hr2
        rw [hd] at hd2
        exact absurd hd2 (by simp)

theorem deleteById_eq_false_iff_witness :
    scenario.WF ∧ (7 : Int) ∉ scenario.idIndex.root.keys ∧ (scenario.deleteById 7).1 = false :=
  ⟨by decide, by decide,
    (deleteById_eq_false_iff scenario (by decide) 7).mpr (Or.inl (by decide))⟩

/-- C8: `insertRecord(r)` returns the store length before the call; afterwards the store is
one record longer, the record at the returned position is `r`, and every earlier position
holds the record it held before. -/
theorem insertRecord_appends (e : Engine) (r : Record) :
    (e.insertRecord r).1 = (e.heap.length : Int)
      ∧ (e.insertRecord r).2.heap.length = e.heap.length + 1
      ∧ (e.insertRecord r).2.heap[((e.insertRecord r).1).toNat]? = some r
      ∧ ∀ p, p < e.heap.length → (e.insertRecord r).2.heap[p]? = e.heap[p]? := by
  rw [insertRecord_fst, insertRecord_heap]
  refine ⟨rfl, by simp, by simp, ?_⟩
  intro p hp
  exact List.getElem?_append_left hp

/-- C9: for every engine state and every record `r` that is not marked deleted, after
`p = insertRecord(r)` the call `findById(r.id)` returns position `p`, where `r` is stored;
it returns no earlier position, so a record stored before under the same id is no longer
found. -/
theorem findById_insertRecord (e : Engine) (r : Record) (hd : r.deleted = false) :
    ((e.insertRecord r).2.findById r.id).1 = some ((e.insertRecord r).1).toNat
      ∧ (e.insertRecord r).2.heap[((e.insertRecord r).1).toNat]? = some r
      ∧ ∀ q, q < e.heap.length → ((e.insertRecord r).2.findById r.id).1 ≠ some q := by
  have hfind : ((e.insertRecord r).2.findById r.id).1 = some e.heap.length := by
    rw [findById_eq_some_iff]
    refine ⟨(e.heap.length : Int), ?_, ?_, by simp⟩
    · rw [insertRecord_idRoot, Tree.find_insert, if_pos rfl]
    · rw [isLive_iff, insertRecord_heap]
      refine ⟨by omega, by simp, r, by simp, hd⟩
  rw [hfind, insertRecord_fst, insertRecord_heap]
  refine ⟨by simp, by simp, ?_⟩
  intro q hq heq
  rw [Option.some.injEq] at heq
  omega

theorem findById_insertRecord_witness :
    rec1.deleted = false
      ∧ ((scenario.insertRecord rec1).2.findById rec1.id).1
          = some ((scenario.insertRecord rec1).1).toNat
      ∧ (scenario.insertRecord rec1).2.heap[((scenario.insertRecord rec1).1).toNat]? = some rec1
      ∧ ∀ q, q < scenario.heap.length →
          ((scenario.insertRecord rec1).2.findById rec1.id).1 ≠ some q :=
  ⟨rfl, findById_insertRecord scenario rec1 rfl⟩

end Engine

/-- C10: in every state reached from the empty engine by `insertRecord` and `deleteById`
calls, a record returned by `findById(id)` is in the store, is not marked deleted and has
the id `id`; and `findById(id)` returns the null pointer when `id` is not a key of
`idIndex`, when the mapped position is out of bounds, and when the record there is marked
deleted. -/
theorem findById_sound (ops : List Op) (id : Int) :
    (∀ p, ((run ops).findById id).1 = some p →
        ∃ r, (run ops).heap[p]? = some r ∧ r.deleted = false ∧ r.id = id)
      ∧ (id ∉ (run ops).idIndex.root.keys → ((run ops).findById id).1 = none)
      ∧ (∀ rid, (run ops).idIndex.root.find id = some rid →
          (rid < 0 ∨ ((run ops).heap.length : Int) ≤ rid) → ((run ops).findById id).1 = none)
      ∧ (∀ rid r, (run ops).idIndex.root.find id = some rid →
          (run ops).heap[rid.toNat]? = some r → r.deleted = true →
          ((run ops).findById id).1 = none) := by
  have hinv := inv_run ops
  refine ⟨?_, ?_, ?_, ?_⟩
  · intro p hp
    obtain ⟨rid, hf, hl, rfl⟩ := (Engine.findById_eq_some_iff _ id p).mp hp
    obtain ⟨_, _, r, hr, hd⟩ := (Engine.isLive_iff _ _).mp hl
    obtain ⟨_, _, r2, hr2, hid⟩ := hinv.idBound id rid hf
    rw [hr, Option.some.injEq] at hr2
    subst hr2
    exact ⟨r, hr, hd, hid⟩
  · intro hk
    rw [Tree.not_mem_keys_iff_find _ hinv.idOrdered] at hk
    rw [Engine.findById_fst, hk]
  · intro rid hf hb
    rw [Engine.findById_eq_none_iff]
    intro rid2 hf2
    rw [hf, Option.some.injEq] at hf2
    subst hf2
    cases hl : Engine.isLive (run ops).heap rid with
    | false => rfl
    | true =>
      obtain ⟨h0, h1, _⟩ := (Engine.isLive_iff _ _).mp hl
      omega
  · intro rid r hf hr hd
    rw [Engine.findById_eq_none_iff]
    intro rid2 hf2
    rw [hf, Option.some.injEq] at hf2
    subst hf2
    cases hl : Engine.isLive (run ops).heap rid with
    | false => rfl
    | true =>
      obtain ⟨_, _, r2, hr2, hd2⟩ := (Engine.isLive_iff _ _).mp hl
      rw [hr, Option.some.injEq] at hr2
      subst hr2
      rw [hd] at hd2
      exact absurd hd2 (by simp)

namespace Tree

variable {K V : Type} [LinearOrder K]

theorem mem_inRange (lo hi : K) (t : Tree K V) (ho : t.Ordered) (k : K) (v : V) :
    (k, v) ∈ inRange lo hi t ↔ t.find k = some v ∧ lo ≤ k ∧ k ≤ hi := by
  rw [inRange, List.mem_filter, find_eq_some_iff t ho]
  simp

theorem pairwise_toList (t : Tree K V) (ho : t.Ordered) :
    t.toList.Pairwise (fun a b => a.1 < b.1) := by
  have h := pairwise_keys t ho
  rw [keys_eq_map_toList, List.pairwise_map] at h
  exact h

theorem pairwise_inRange (lo hi : K) (t : Tree K V) (ho : t.Ordered) :
    (inRange lo hi t).Pairwise (fun a b => a.1 < b.1) :=
  List.Pairwise.filter _ (pairwise_toList t ho)

end Tree

/-- C7: in every state reached from the empty engine by `insertRecord` and `deleteById`
calls and for every prefix, every record returned by `prefixByLast(prefix)` is not marked
deleted, its lower-cased last name starts with the lower-cased prefix, and no store
position occurs twice in the result. -/
theorem prefixByLast_sound (ops : List Op) (pfx : Str) :
    (∀ p ∈ ((run ops).prefixByLast pfx).1,
        ∃ r, (run ops).heap[p]? = some r ∧ r.deleted = false
          ∧ startsWith (toLower r.last) (toLower pfx) = true)
      ∧ (((run ops).prefixByLast pfx).1).Nodup := by
  have hinv := inv_run ops
  rw [Engine.prefixByLast_fst _ hinv.lastOrdered]
  have hentry : ∀ kv ∈ (Tree.inRange (toLower pfx) ((toLower pfx).push_back 255)
      (run ops).lastIndex.root).filter (fun kv => startsWith kv.1 (toLower pfx)),
      startsWith kv.1 (toLower pfx) = true ∧ (run ops).lastIndex.root.find kv.1 = some kv.2 := by
    intro kv hkv
    obtain ⟨h1, h2⟩ := List.mem_filter.mp hkv
    exact ⟨h2, ((Tree.mem_inRange _ _ _ hinv.lastOrdered kv.1 kv.2).mp h1).1⟩
  constructor
  · intro p hp
    rw [List.mem_flatMap] at hp
    obtain ⟨kv, hkv, hp⟩ := hp
    rw [List.mem_map] at hp
    obtain ⟨rid, hrid, rfl⟩ := hp
    obtain ⟨hrid1, hrid2⟩ := List.mem_filter.mp hrid
    obtain ⟨_, _, r, hr, hd⟩ := (Engine.isLive_iff _ _).mp hrid2
    obtain ⟨hs, hf⟩ := hentry kv hkv
    obtain ⟨_, _, r2, hr2, hl⟩ := (hinv.lastBound kv.1 kv.2 hf).2 rid hrid1
    rw [hr, Option.some.injEq] at hr2
    subst hr2
    exact ⟨r, hr, hd, by rw [hl]; exact hs⟩
  · rw [List.nodup_flatMap]
    constructor
    · intro kv hkv
      obtain ⟨_, hf⟩ := hentry kv hkv
      have hnd : kv.2.Nodup :=
        ((hinv.lastBound kv.1 kv.2 hf).1).imp (fun h => ne_of_lt h)
      refine List.Nodup.map_on ?_ (hnd.filter _)
      intro x hx y hy hxy
      have hx0 := ((Engine.isLive_iff _ _).mp (List.mem_filter.mp hx).2).1
      have hy0 := ((Engine.isLive_iff _ _).mp (List.mem_filter.mp hy).2).1
      omega
    · have hpw := (Tree.pairwise_inRange (toLower pfx) ((toLower pfx).push_back 255)
        (run ops).lastIndex.root hinv.lastOrdered).filter
        (fun kv => startsWith kv.1 (toLower pfx))
      refine List.Pairwise.imp_of_mem ?_ hpw
      intro a b ha hb hab
      show List.Disjoint _ _
      intro p hpa hpb
      rw [List.mem_map] at hpa hpb
      obtain ⟨x, hx, hxp⟩ := hpa
      obtain ⟨y, hy, hyp⟩ := hpb
      obtain ⟨hx1, hx2⟩ := List.mem_filter.mp hx
      obtain ⟨hy1, hy2⟩ := List.mem_filter.mp hy
      have hx0 := ((Engine.isLive_iff _ _).mp hx2).1
      have hy0 := ((Engine.isLive_iff _ _).mp hy2).1
      have hxy : x = y := by omega
      subst hxy
      obtain ⟨_, _, r, hr, hl⟩ := (hinv.lastBound a.1 a.2 (hentry a ha).2).2 x hx1
      obtain ⟨_, _, r2, hr2, hl2⟩ := (hinv.lastBound b.1 b.2 (hentry b hb).2).2 x hy1
      rw [hr, Option.some.injEq] at hr2
      subst hr2
      rw [hl] at hl2
      exact absurd hl2 (ne_of_lt hab)

/-- C5: in every state reached from the empty engine by `insertRecord` calls of records
not marked deleted and `deleteById` calls, where no insert uses the id of a currently
live record, `rangeById(lo, hi)` returns exactly the positions of the live records with
`lo <= id <= hi`, each once, in strictly ascending order of id. -/
theorem rangeById_exact (ops : List Op) (hok : runOk Engine.empty ops = true) (lo hi : Int) :
    (∀ p, p ∈ ((run ops).rangeById lo hi).1 ↔
        ∃ r, (run ops).heap[p]? = some r ∧ r.deleted = false ∧ lo ≤ r.id ∧ r.id ≤ hi)
      ∧ (((run ops).rangeById lo hi).1).Nodup
      ∧ (((run ops).rangeById lo hi).1).Pairwise
          (fun p q => ∀ a b, (run ops).heap[p]? = some a → (run ops).heap[q]? = some b →
            a.id < b.id) := by
  have hinv := inv_run ops
  have hu := invU_run ops hok
  rw [Engine.rangeById_fst _ hinv.idOrdered]
  have hmem : ∀ p, p ∈ List.map Int.toNat (List.filter (Engine.isLive (run ops).heap)
      (List.map Prod.snd (Tree.inRange lo hi (run ops).idIndex.root))) ↔
      ∃ k rid, (run ops).idIndex.root.find k = some rid ∧ lo ≤ k ∧ k ≤ hi
        ∧ Engine.isLive (run ops).heap rid = true ∧ rid.toNat = p := by
    intro p
    simp only [List.mem_map, List.mem_filter, Prod.exists, exists_eq_right,
      Tree.mem_inRange _ _ _ hinv.idOrdered]
    constructor
    · rintro ⟨rid, ⟨⟨k, hf, h1, h2⟩, hl⟩, rfl⟩
      exact ⟨k, rid, hf, h1, h2, hl, rfl⟩
    · rintro ⟨k, rid, hf, h1, h2, hl, rfl⟩
      exact ⟨rid, ⟨⟨k, hf, h1, h2⟩, hl⟩, rfl⟩
  have hpw : (List.map Int.toNat (List.filter (Engine.isLive (run ops).heap)
      (List.map Prod.snd (Tree.inRange lo hi (run ops).idIndex.root)))).Pairwise
      (fun p q => ∀ a b, (run ops).heap[p]? = some a → (run ops).heap[q]? = some b →
        a.id < b.id) := by
    rw [List.filter_map, List.map_map, List.pairwise_map]
    refine List.Pairwise.imp_of_mem ?_
      ((Tree.pairwise_inRange lo hi _ hinv.idOrdered).filter _)
    intro x y hx hy hxy a b ha hb
    have hfx := ((Tree.mem_inRange _ _ _ hinv.idOrdered x.1 x.2).mp (List.mem_filter.mp hx).1).1
    have hfy := ((Tree.mem_inRange _ _ _ hinv.idOrdered y.1 y.2).mp (List.mem_filter.mp hy).1).1
    obtain ⟨_, _, rx, hrx, hix⟩ := hinv.idBound x.1 x.2 hfx
    obtain ⟨_, _, ry, hry, hiy⟩ := hinv.idBound y.1 y.2 hfy
    simp only [Function.comp] at ha hb
    rw [hrx, Option.some.injEq] at ha
    rw [hry, Option.some.injEq] at hb
    subst ha hb
    rw [hix, hiy]
    exact hxy
  refine ⟨?_, ?_, hpw⟩
  · intro p
    rw [hmem]
    constructor
    · rintro ⟨k, rid, hf, h1, h2, hl, rfl⟩
      obtain ⟨_, _, r, hr, hd⟩ := (Engine.isLive_iff _ _).mp hl
      obtain ⟨_, _, r2, hr2, hid⟩ := hinv.idBound k rid hf
      rw [hr, Option.some.injEq] at hr2
      subst hr2
      exact ⟨r, hr, hd, by rw [hid]; exact h1, by rw [hid]; exact h2⟩
    · rintro ⟨r, hr, hd, h1, h2⟩
      have hf := hu.idComplete p r hr hd
      refine ⟨r.id, (p : Int), hf, h1, h2, ?_, by simp⟩
      rw [Engine.isLive_iff]
      have hlt : p < (run ops).heap.length := (List.getElem?_eq_some.mp hr).1
      exact ⟨by omega, by omega, r, by simpa using hr, hd⟩
  · refine List.Pairwise.imp_of_mem ?_ hpw
    intro p q hp hq h heq
    subst heq
    obtain ⟨k, rid, hf, _, _, hl, hrid⟩ := (hmem p).mp hp
    obtain ⟨_, _, r, hr, _⟩ := (Engine.isLive_iff _ _).mp hl
    rw [hrid] at hr
    exact absurd (h r r hr hr) (lt_irrefl _)

theorem rangeById_exact_witness :
    runOk Engine.empty scenarioOps = true
      ∧ (∀ p, p ∈ ((run scenarioOps).rangeById 1 2).1 ↔
          ∃ r, (run scenarioOps).heap[p]? = some r ∧ r.deleted = false ∧ 1 ≤ r.id ∧ r.id ≤ 2)
      ∧ (((run scenarioOps).rangeById 1 2).1).Nodup
      ∧ (((run scenarioOps).rangeById 1 2).1).Pairwise
          (fun p q => ∀ a b, (run scenarioOps).heap[p]? = some a →
            (run scenarioOps).heap[q]? = some b → a.id < b.id) :=
  ⟨by decide, rangeById_exact scenarioOps (by decide) 1 2⟩

/-- C6 fails on the code: after `insertRecord(recFF)` the record at position 0 is live and
its last name `"a\xff\xff"` starts with the prefix `"a"`, yet `prefixByLast("a")` returns
nothing: the key is greater than the upper bound `"a\xff"` of the range scan. -/
theorem prefixByLast_misses_byte_255 :
    (run [Op.insert recFF]).heap[0]? = some recFF
      ∧ recFF.deleted = false
      ∧ startsWith (toLower recFF.last) (toLower ⟨[97]⟩) = true
      ∧ ((run [Op.insert recFF]).prefixByLast ⟨[97]⟩).1 = [] := by
  decide

namespace Tree

variable {K V σ : Type} [LinearOrder K]

/-- A visitor that leaves the values as they are leaves the tree as it is, whatever the
shape of the tree. -/
theorem rangeApply_fst_readonly (lo hi : K) (f : K → V → σ → V × σ)
    (hf : ∀ k v s, (f k v s).1 = v) (t : Tree K V) (s : σ) :
    (t.rangeApply lo hi f s).1 = t := by
  induction t generalizing s with
  | nil => rfl
  | node l key val r ihl ihr =>
    simp only [rangeApply]
    congr 1
    · by_cases h : lo < key
      · rw [if_pos h]; exact ihl s
      · rw [if_neg h]
    · by_cases h : lo ≤ key ∧ key ≤ hi
      · rw [if_pos h]; exact hf _ _ _
      · rw [if_neg h]
    · by_cases h : key < hi
      · rw [if_pos h]; exact ihr _
      · rw [if_neg h]

end Tree

namespace Engine

/-- C11: when `deleteById(id)` returns true, a second `deleteById(id)` made right after it
returns false and leaves the store and the two index trees as the first call left them. -/
theorem deleteById_twice (e : Engine) (hwf : e.WF) (id : Int)
    (hres : (e.deleteById id).1 = true) :
    ((e.deleteById id).2.deleteById id).1 = false
      ∧ ((e.deleteById id).2.deleteById id).2.heap = (e.deleteById id).2.heap
      ∧ ((e.deleteById id).2.deleteById id).2.idIndex.root = (e.deleteById id).2.idIndex.root
      ∧ ((e.deleteById id).2.deleteById id).2.lastIndex.root
          = (e.deleteById id).2.lastIndex.root := by
  have hfalse : ((e.deleteById id).2.deleteById id).1 = false := by
    rw [← Bool.not_eq_true, deleteById_eq_true_iff]
    rintro ⟨rid, hf, _⟩
    obtain ⟨rid0, hf0, hl⟩ := (deleteById_eq_true_iff e id).mp hres
    obtain ⟨h0, h1, r, hr, hd⟩ := (isLive_iff _ _).mp hl
    rw [(deleteById_success e id rid0 r hf0 h0 h1 hr hd).2.2.1,
      Tree.find_erase _ _ _ hwf.1, if_pos rfl] at hf
    exact absurd hf (by simp)
  exact ⟨hfalse, deleteById_fail _ id hfalse⟩

theorem deleteById_twice_witness :
    scenario.WF ∧ (scenario.deleteById 2).1 = true
      ∧ ((scenario.deleteById 2).2.deleteById 2).1 = false
      ∧ ((scenario.deleteById 2).2.deleteById 2).2.heap = (scenario.deleteById 2).2.heap
      ∧ ((scenario.deleteById 2).2.deleteById 2).2.idIndex.root
          = (scenario.deleteById 2).2.idIndex.root
      ∧ ((scenario.deleteById 2).2.deleteById 2).2.lastIndex.root
          = (scenario.deleteById 2).2.lastIndex.root :=
  ⟨by decide, by decide, deleteById_twice scenario (by decide) 2 (by decide)⟩

/-- C12: when `deleteById(id)` returns true and resolved `id` to position `p`, the store
keeps its length, every record at another position is the record it was, and the record
at `p` is the record it was with `deleted` set to true: id, last name and the other fields
are kept. -/
theorem deleteById_flips_flag (e : Engine) (id p : Int) (hres : (e.deleteById id).1 = true)
    (hp : e.idIndex.root.find id = some p) :
    ∃ r, e.heap[p.toNat]? = some r ∧ r.deleted = false
      ∧ (e.deleteById id).2.heap.length = e.heap.length
      ∧ (e.deleteById id).2.heap[p.toNat]? = some ⟨r.id, r.last, r.other, true⟩
      ∧ ∀ q, q ≠ p.toNat → (e.deleteById id).2.heap[q]? = e.heap[q]? := by
  obtain ⟨rid, hf, hl⟩ := (deleteById_eq_true_iff e id).mp hres
  rw [hp, Option.some.injEq] at hf
  subst hf
  obtain ⟨h0, h1, r, hr, hd⟩ := (isLive_iff _ _).mp hl
  obtain ⟨_, hheap, _, _⟩ := deleteById_success e id p r hp h0 h1 hr hd
  refine ⟨r, hr, hd, ?_, ?_, ?_⟩
  · rw [hheap, List.length_set]
  · rw [hheap, List.getElem?_set_self (List.getElem?_eq_some.mp hr).1]
  · intro q hq
    rw [hheap, List.getElem?_set_ne (Ne.symm hq)]

theorem deleteById_flips_flag_witness :
    (scenario.deleteById 2).1 = true ∧ scenario.idIndex.root.find 2 = some 1
      ∧ ∃ r, scenario.heap[(1 : Int).toNat]? = some r ∧ r.deleted = false
        ∧ (scenario.deleteById 2).2.heap.length = scenario.heap.length
        ∧ (scenario.deleteById 2).2.heap[(1 : Int).toNat]? = some ⟨r.id, r.last, r.other, true⟩
        ∧ ∀ q, q ≠ (1 : Int).toNat → (scenario.deleteById 2).2.heap[q]? = scenario.heap[q]? :=
  ⟨by decide, by decide, deleteById_flips_flag scenario 2 1 (by decide) (by decide)⟩

/-- C18: when `deleteById(id)` returns false, the store and the tree of `idIndex` are what
they were before the call, and `lastIndex` is not touched at all. -/
theorem deleteById_false_unchanged (e : Engine) (id : Int)
    (hres : (e.deleteById id).1 = false) :
    (e.deleteById id).2.heap = e.heap
      ∧ (e.deleteById id).2.heap.length = e.heap.length
      ∧ (e.deleteById id).2.idIndex.root = e.idIndex.root
      ∧ (e.deleteById id).2.idIndex.root.toList = e.idIndex.root.toList
      ∧ (e.deleteById id).2.lastIndex = e.lastIndex := by
  have hf : (e.idIndex.find id).1 = e.idIndex.root.find id := rfl
  have hroot : (e.idIndex.find id).2.root = e.idIndex.root := rfl
  unfold deleteById at hres ⊢
  simp only [hf] at hres ⊢
  cases h1 : e.idIndex.root.find id with
  | none => simp [hroot]
  | some rid =>
    simp only [h1] at hres ⊢
    by_cases h2 : rid < 0 ∨ rid ≥ e.heap.length
    · simp [h2, hroot]
    · simp only [h2, if_false] at hres ⊢
      cases h3 : e.heap[rid.toNat]? with
      | none => simp [hroot]
      | some r =>
        simp only [h3] at hres ⊢
        by_cases h4 : r.deleted = true
        · simp [h4, hroot]
        · simp only [h4, if_false] at hres
          have hf2 : (e.lastIndex.find (toLower r.last)).1
              = e.lastIndex.root.find (toLower r.last) := rfl
          simp only [hf2] at hres
          cases h5 : e.lastIndex.root.find (toLower r.last) <;> simp [h5] at hres

theorem deleteById_false_unchanged_witness :
    (scenario.deleteById 7).1 = false
      ∧ (scenario.deleteById 7).2.heap = scenario.heap
      ∧ (scenario.deleteById 7).2.heap.length = scenario.heap.length
      ∧ (scenario.deleteById 7).2.idIndex.root = scenario.idIndex.root
      ∧ (scenario.deleteById 7).2.idIndex.root.toList = scenario.idIndex.root.toList
      ∧ (scenario.deleteById 7).2.lastIndex = scenario.lastIndex :=
  ⟨by decide, deleteById_false_unchanged scenario 7 (by decide)⟩

theorem findById_state (e : Engine) (id : Int) :
    (e.findById id).2.2.heap = e.heap ∧ (e.findById id).2.2.idIndex.root = e.idIndex.root
      ∧ (e.findById id).2.2.lastIndex = e.lastIndex := by
  have hf : (e.idIndex.resetMetrics.find id).1 = e.idIndex.root.find id := rfl
  unfold findById
  simp only [hf]
  cases h : e.idIndex.root.find id with
  | none => exact ⟨rfl, rfl, rfl⟩
  | some rid =>
    simp only []
    split_ifs <;> exact ⟨rfl, rfl, rfl⟩

theorem rangeVisitor_readonly (heap : List Record) (k rid : Int) (out : List Nat) :
    (rangeVisitor heap k rid out).1 = rid := rfl

theorem prefixVisitor_readonly (heap : List Record) (p key : Str) (vec : List Int)
    (out : List Nat) : (prefixVisitor heap p key vec out).1 = vec := by
  unfold prefixVisitor
  split_ifs <;> rfl

theorem rangeById_state (e : Engine) (lo hi : Int) :
    (e.rangeById lo hi).2.2.heap = e.heap ∧ (e.rangeById lo hi).2.2.idIndex.root = e.idIndex.root
      ∧ (e.rangeById lo hi).2.2.lastIndex = e.lastIndex :=
  ⟨rfl, Tree.rangeApply_fst_readonly lo hi _ (rangeVisitor_readonly e.heap) _ _, rfl⟩

theorem prefixByLast_state (e : Engine) (pfx : Str) :
    (e.prefixByLast pfx).2.2.heap = e.heap ∧ (e.prefixByLast pfx).2.2.idIndex = e.idIndex
      ∧ (e.prefixByLast pfx).2.2.lastIndex.root = e.lastIndex.root :=
  ⟨rfl, rfl, Tree.rangeApply_fst_readonly _ _ _ (prefixVisitor_readonly e.heap _) _ _⟩

/-- The pointer returned by `findById` depends on the store and the tree of `idIndex` only. -/
theorem findById_fst_congr (e e2 : Engine) (id : Int) (hh : e2.heap = e.heap)
    (hi : e2.idIndex.root = e.idIndex.root) : (e2.findById id).1 = (e.findById id).1 := by
  rw [findById_fst, findById_fst, hh, hi]

/-- The vector returned by `rangeById` depends on the store and the tree of `idIndex` only. -/
theorem rangeById_fst_congr (e e2 : Engine) (lo hi : Int) (hh : e2.heap = e.heap)
    (hi2 : e2.idIndex.root = e.idIndex.root) :
    (e2.rangeById lo hi).1 = (e.rangeById lo hi).1 := by
  unfold rangeById BST.rangeApply BST.resetMetrics
  simp only [hh, hi2]

/-- The vector returned by `prefixByLast` depends on the store and the tree of `lastIndex`
only. -/
theorem prefixByLast_fst_congr (e e2 : Engine) (pfx : Str) (hh : e2.heap = e.heap)
    (hl : e2.lastIndex.root = e.lastIndex.root) :
    (e2.prefixByLast pfx).1 = (e.prefixByLast pfx).1 := by
  unfold prefixByLast BST.rangeApply BST.resetMetrics
  simp only [hh, hl]

/-- C19: for every engine state and all arguments, `findById`, `rangeById` and
`prefixByLast` leave the store and the trees of `idIndex` and `lastIndex` as they were
(the index that a query does not scan is not touched at all, the scanned one may differ
in its comparison counter only), and the same query made again returns the same result. -/
theorem queries_readonly (e : Engine) (id lo hi : Int) (pfx : Str) :
    ((e.findById id).2.2.heap = e.heap
        ∧ (e.findById id).2.2.idIndex.root = e.idIndex.root
        ∧ (e.findById id).2.2.lastIndex = e.lastIndex
        ∧ ((e.findById id).2.2.findById id).1 = (e.findById id).1)
      ∧ ((e.rangeById lo hi).2.2.heap = e.heap
        ∧ (e.rangeById lo hi).2.2.idIndex.root = e.idIndex.root
        ∧ (e.rangeById lo hi).2.2.lastIndex = e.lastIndex
        ∧ ((e.rangeById lo hi).2.2.rangeById lo hi).1 = (e.rangeById lo hi).1)
      ∧ ((e.prefixByLast pfx).2.2.heap = e.heap
        ∧ (e.prefixByLast pfx).2.2.idIndex = e.idIndex
        ∧ (e.prefixByLast pfx).2.2.lastIndex.root = e.lastIndex.root
        ∧ ((e.prefixByLast pfx).2.2.prefixByLast pfx).1 = (e.prefixByLast pfx).1) := by
  obtain ⟨f1, f2, f3⟩ := findById_state e id
  obtain ⟨r1, r2, r3⟩ := rangeById_state e lo hi
  obtain ⟨p1, p2, p3⟩ := prefixByLast_state e pfx
  exact ⟨⟨f1, f2, f3, findById_fst_congr e _ id f1 f2⟩,
    ⟨r1, r2, r3, rangeById_fst_congr e _ lo hi r1 r2⟩,
    ⟨p1, p2, p3, prefixByLast_fst_congr e _ pfx p1 p3⟩⟩

theorem invL_congr (e e2 : Engine) (h : InvL e) (hh : e2.heap = e.heap)
    (hi : e2.idIndex.root = e.idIndex.root) (hl : e2.lastIndex.root = e.lastIndex.root) :
    InvL e2 := by
  refine ⟨?_, ?_⟩
  · rw [hi, hh]; exact h.idLive
  · rw [hl, hh]; exact h.lastLive

theorem invL_empty : InvL Engine.empty := by
  refine ⟨?_, ?_⟩
  · intro k rid r h; simp [Engine.empty, BST.empty, Tree.find] at h
  · intro key vec p r h; simp [Engine.empty, BST.empty, Tree.find] at h

theorem invL_insertRecord (e : Engine) (r : Record) (h : Inv e) (hl : InvL e)
    (hd : r.deleted = false) : InvL (e.insertRecord r).2 := by
  refine ⟨?_, ?_⟩
  · intro k rid r0 hf hr0
    rw [insertRecord_idRoot, Tree.find_insert] at hf
    rw [insertRecord_heap] at hr0
    by_cases hk : k = r.id
    · rw [if_pos hk, Option.some.injEq] at hf
      subst hf
      simp only [Int.toNat_ofNat, List.getElem?_append_right (le_refl _), Nat.sub_self,
        List.getElem?_cons_zero, Option.some.injEq] at hr0
      subst hr0
      exact hd
    · rw [if_neg hk] at hf
      obtain ⟨h0, h1, _⟩ := h.idBound k rid hf
      rw [List.getElem?_append_left (by omega)] at hr0
      exact hl.idLive k rid r0 hf hr0
  · intro key vec p r0 hf hp hr0
    rw [insertRecord_lastFind] at hf
    rw [insertRecord_heap] at hr0
    have hold : ∀ v0, e.lastIndex.root.find key = some v0 → p ∈ v0 → r0.deleted = false := by
      intro v0 hv0 hp0
      obtain ⟨h0, h1, _⟩ := (h.lastBound key v0 hv0).2 p hp0
      rw [List.getElem?_append_left (by omega)] at hr0
      exact hl.lastLive key v0 p r0 hv0 hp0 hr0
    by_cases hk : key = toLower r.last
    · rw [if_pos hk, Option.some.injEq] at hf
      subst hf
      rcases List.mem_append.mp hp with hp | hp
      · cases hv : e.lastIndex.root.find key with
        | none => simp [hv] at hp
        | some v0 =>
          rw [hv] at hp
          exact hold v0 hv hp
      · rw [List.mem_singleton] at hp
        subst hp
        simp only [Int.toNat_ofNat, List.getElem?_append_right (le_refl _), Nat.sub_self,
          List.getElem?_cons_zero, Option.some.injEq] at hr0
        subst hr0
        exact hd
    · rw [if_neg hk] at hf
      exact hold vec hf hp

theorem invL_deleteById (e : Engine) (id : Int) (h : Inv e) (hl : InvL e) :
    InvL (e.deleteById id).2 := by
  cases hres : (e.deleteById id).1 with
  | false =>
    obtain ⟨h1, h2, h3⟩ := deleteById_fail e id hres
    exact invL_congr e _ hl h1 h2 h3
  | true =>
    obtain ⟨rid, hf, hlv⟩ := (deleteById_eq_true_iff e id).mp hres
    obtain ⟨h0, h1, r, hr, hd⟩ := (isLive_iff _ _).mp hlv
    obtain ⟨_, hheap, hid, _⟩ := deleteById_success e id rid r hf h0 h1 hr hd
    have hlf := deleteById_lastFind e id rid r hf h0 h1 hr hd
    refine ⟨?_, ?_⟩
    · intro k rid2 r0 hf2 hr0
      rw [hid, Tree.find_erase _ _ _ h.idOrdered] at hf2
      rw [hheap] at hr0
      by_cases hk : k = id
      · simp [hk] at hf2
      · rw [if_neg hk] at hf2
        obtain ⟨g0, g1, r2, hr2, hid2⟩ := h.idBound k rid2 hf2
        obtain ⟨_, _, r3, hr3, hid3⟩ := h.idBound id rid hf
        have hne : rid.toNat ≠ rid2.toNat := by
          intro heq
          rw [heq, hr2, Option.some.injEq] at hr3
          subst hr3
          exact hk (hid2.symm.trans hid3)
        rw [List.getElem?_set_ne hne] at hr0
        exact hl.idLive k rid2 r0 hf2 hr0
    · intro key vec p r0 hfv hp hr0
      rw [hlf] at hfv
      rw [hheap] at hr0
      have hold : ∀ v0, e.lastIndex.root.find key = some v0 → p ∈ v0 → p ≠ rid →
          r0.deleted = false := by
        intro v0 hv0 hp0 hne
        obtain ⟨g0, _, _⟩ := (h.lastBound key v0 hv0).2 p hp0
        rw [List.getElem?_set_ne (by omega)] at hr0
        exact hl.lastLive key v0 p r0 hv0 hp0 hr0
      by_cases hk : key = toLower r.last
      · rw [if_pos hk] at hfv
        cases hv0 : e.lastIndex.root.find key with
        | none => simp [hv0] at hfv
        | some v0 =>
          rw [hv0, Option.map_some', Option.some.injEq] at hfv
          subst hfv
          obtain ⟨hp1, hp2⟩ := List.mem_filter.mp hp
          exact hold v0 hv0 hp1 (by simpa using hp2)
      · rw [if_neg hk] at hfv
        refine hold vec hfv hp ?_
        intro hpe
        subst hpe
        obtain ⟨_, _, r2, hr2, hl2⟩ := (h.lastBound key vec hfv).2 p hp
        rw [hr, Option.some.injEq] at hr2
        subst hr2
        exact hk hl2.symm

theorem invL_foldl (ops : List Op) (e : Engine) (h : Inv e) (hl : InvL e)
    (hok : insertsLive ops = true) : InvL (ops.foldl step e) := by
  induction ops generalizing e with
  | nil => exact hl
  | cons op ops ih =>
    simp only [insertsLive, List.all_cons, Bool.and_eq_true] at hok
    refine ih _ (inv_step e op h) ?_ (by simpa [insertsLive] using hok.2)
    cases op with
    | insert r =>
      have h1 := hok.1
      simp only [Bool.not_eq_true'] at h1
      exact invL_insertRecord e r h hl h1
    | delete id => exact invL_deleteById e id h hl

end Engine

theorem invL_run (ops : List Op) (hok : insertsLive ops = true) : Engine.InvL (run ops) :=
  Engine.invL_foldl ops _ Engine.inv_empty Engine.invL_empty hok

/-- C14, as stated, fails: `insertRecord` of a record whose `deleted` flag is already set
stores it at position 0 and enters that position in both indexes. -/
theorem deleted_record_indexed :
    (run [Op.insert recDel]).heap[0]? = some recDel ∧ recDel.deleted = true
      ∧ ((1 : Int), (0 : Int)) ∈ (run [Op.insert recDel]).idIndex.root.toList
      ∧ (toLower smith, [(0 : Int)]) ∈ (run [Op.insert recDel]).lastIndex.root.toList
      ∧ (0 : Int) ∈ [(0 : Int)] := by
  decide

/-- C14, amended: in every state reached from the empty engine by `insertRecord` calls of
records with `deleted = false` (ids may repeat) and `deleteById` calls, no entry of
`idIndex` maps to the position of a record marked deleted and no sequence of `lastIndex`
contains such a position. -/
theorem deleted_not_indexed (ops : List Op) (hok : insertsLive ops = true) (q : Nat)
    (r : Record) (hr : (run ops).heap[q]? = some r) (hd : r.deleted = true) :
    (∀ k, (k, (q : Int)) ∉ (run ops).idIndex.root.toList)
      ∧ (∀ key vec, (key, vec) ∈ (run ops).lastIndex.root.toList → (q : Int) ∉ vec) := by
  have hinv := inv_run ops
  have hl := invL_run ops hok
  constructor
  · intro k hk
    have hf := (Tree.find_eq_some_iff _ hinv.idOrdered k (q : Int)).mpr hk
    have := hl.idLive k (q : Int) r hf (by simpa using hr)
    rw [hd] at this
    exact absurd this (by simp)
  · intro key vec hkv hq
    have hf := (Tree.find_eq_some_iff _ hinv.lastOrdered key vec).mpr hkv
    have := hl.lastLive key vec (q : Int) r hf hq (by simpa using hr)
    rw [hd] at this
    exact absurd this (by simp)

theorem deleted_not_indexed_witness :
    insertsLive (scenarioOps ++ [Op.delete 2]) = true
      ∧ (run (scenarioOps ++ [Op.delete 2])).heap[1]? = some ⟨2, smythe, ⟨[]⟩, true⟩
      ∧ (∀ k, (k, ((1 : Nat) : Int)) ∉ (run (scenarioOps ++ [Op.delete 2])).idIndex.root.toList)
      ∧ (∀ key vec, (key, vec) ∈ (run (scenarioOps ++ [Op.delete 2])).lastIndex.root.toList →
          ((1 : Nat) : Int) ∉ vec) :=
  ⟨by decide, by decide,
    deleted_not_indexed (scenarioOps ++ [Op.delete 2]) (by decide) 1 ⟨2, smythe, ⟨[]⟩, true⟩
      (by decide) rfl⟩

/-- C13: in every state reached from the empty engine by `insertRecord` calls of records
with `deleted = false` and `deleteById` calls, where no insert uses the id of a currently
live record, every record at a position `p` that is not marked deleted has its id as a key
of `idIndex` mapped to `p`, and its lower-cased last name as a key of `lastIndex` whose
sequence contains `p`. -/
theorem live_records_indexed (ops : List Op) (hok : runOk Engine.empty ops = true) (p : Nat)
    (r : Record) (hr : (run ops).heap[p]? = some r) (hd : r.deleted = false) :
    (r.id ∈ (run ops).idIndex.root.keys
        ∧ (r.id, (p : Int)) ∈ (run ops).idIndex.root.toList
        ∧ (run ops).idIndex.root.find r.id = some (p : Int))
      ∧ (toLower r.last ∈ (run ops).lastIndex.root.keys
        ∧ ∃ vec, (toLower r.last, vec) ∈ (run ops).lastIndex.root.toList
          ∧ (run ops).lastIndex.root.find (toLower r.last) = some vec ∧ (p : Int) ∈ vec) := by
  have hinv := inv_run ops
  have hu := invU_run ops hok
  have hf := hu.idComplete p r hr hd
  obtain ⟨vec, hv, hm⟩ := hinv.lastComplete p r hr hd
  refine ⟨⟨?_, ?_, hf⟩, ?_, vec, ?_, hv, hm⟩
  · exact (Tree.mem_keys_iff_find _ hinv.idOrdered _).mpr ⟨_, hf⟩
  · exact (Tree.find_eq_some_iff _ hinv.idOrdered _ _).mp hf
  · exact (Tree.mem_keys_iff_find _ hinv.lastOrdered _).mpr ⟨_, hv⟩
  · exact (Tree.find_eq_some_iff _ hinv.lastOrdered _ _).mp hv

theorem live_records_indexed_witness :
    runOk Engine.empty scenarioOps = true ∧ (run scenarioOps).heap[1]? = some rec2
      ∧ rec2.deleted = false
      ∧ (rec2.id ∈ (run scenarioOps).idIndex.root.keys
        ∧ (rec2.id, ((1 : Nat) : Int)) ∈ (run scenarioOps).idIndex.root.toList
        ∧ (run scenarioOps).idIndex.root.find rec2.id = some ((1 : Nat) : Int))
      ∧ (toLower rec2.last ∈ (run scenarioOps).lastIndex.root.keys
        ∧ ∃ vec, (toLower rec2.last, vec) ∈ (run scenarioOps).lastIndex.root.toList
          ∧ (run scenarioOps).lastIndex.root.find (toLower rec2.last) = some vec
          ∧ ((1 : Nat) : Int) ∈ vec) :=
  ⟨by decide, by decide, rfl,
    live_records_indexed scenarioOps (by decide) 1 rec2 (by decide) rfl⟩

namespace Engine

/-- C15: when `deleteById(id)` returns true and resolved `id` to position `p`, afterwards
`id` is not a key of `idIndex` and every other key is mapped as before; `lastIndex` has
the keys it had; the sequence under the lower-cased last name of the record at `p` is the
old sequence without the occurrences of `p`, the rest in its old order; every other
sequence is the one it was. -/
theorem deleteById_index_effect (e : Engine) (hwf : e.WF) (id p : Int)
    (hres : (e.deleteById id).1 = true) (hp : e.idIndex.root.find id = some p) :
    ∃ r, e.heap[p.toNat]? = some r
      ∧ id ∉ (e.deleteById id).2.idIndex.root.keys
      ∧ (∀ k, k ≠ id → (k ∈ (e.deleteById id).2.idIndex.root.keys ↔ k ∈ e.idIndex.root.keys))
      ∧ (∀ k, k ≠ id → (e.deleteById id).2.idIndex.root.find k = e.idIndex.root.find k)
      ∧ (e.deleteById id).2.lastIndex.root.keys = e.lastIndex.root.keys
      ∧ (e.deleteById id).2.lastIndex.root.find (toLower r.last)
          = (e.lastIndex.root.find (toLower r.last)).map (fun vec => vec.filter (· ≠ p))
      ∧ (∀ key, key ≠ toLower r.last →
          (e.deleteById id).2.lastIndex.root.find key = e.lastIndex.root.find key) := by
  obtain ⟨rid, hf, hl⟩ := (deleteById_eq_true_iff e id).mp hres
  rw [hp, Option.some.injEq] at hf
  subst hf
  obtain ⟨h0, h1, r, hr, hd⟩ := (isLive_iff _ _).mp hl
  obtain ⟨_, _, hid, hlast⟩ := deleteById_success e id p r hp h0 h1 hr hd
  have hlf := deleteById_lastFind e id p r hp h0 h1 hr hd
  refine ⟨r, hr, ?_, ?_, ?_, ?_, ?_, ?_⟩
  · rw [hid, Tree.mem_keys_erase _ _ _ hwf.1]
    exact fun h => h.2 rfl
  · intro k hk
    rw [hid, Tree.mem_keys_erase _ _ _ hwf.1]
    exact ⟨fun h => h.1, fun h => ⟨h, hk⟩⟩
  · intro k hk
    rw [hid, Tree.find_erase _ _ _ hwf.1, if_neg hk]
  · rw [hlast]
    split
    · exact Tree.keys_store _ _ _
    · rfl
  · rw [hlf, if_pos rfl]
  · intro key hk
    rw [hlf, if_neg hk]

theorem deleteById_index_effect_witness :
    scenario.WF ∧ (scenario.deleteById 2).1 = true ∧ scenario.idIndex.root.find 2 = some 1
      ∧ ∃ r, scenario.heap[(1 : Int).toNat]? = some r
        ∧ (2 : Int) ∉ (scenario.deleteById 2).2.idIndex.root.keys
        ∧ (∀ k, k ≠ (2 : Int) →
            (k ∈ (scenario.deleteById 2).2.idIndex.root.keys ↔ k ∈ scenario.idIndex.root.keys))
        ∧ (∀ k, k ≠ (2 : Int) →
            (scenario.deleteById 2).2.idIndex.root.find k = scenario.idIndex.root.find k)
        ∧ (scenario.deleteById 2).2.lastIndex.root.keys = scenario.lastIndex.root.keys
        ∧ (scenario.deleteById 2).2.lastIndex.root.find (toLower r.last)
            = (scenario.lastIndex.root.find (toLower r.last)).map
                (fun vec => vec.filter (· ≠ (1 : Int)))
        ∧ (∀ key, key ≠ toLower r.last →
            (scenario.deleteById 2).2.lastIndex.root.find key
              = scenario.lastIndex.root.find key) :=
  ⟨by decide, by decide, by decide,
    deleteById_index_effect scenario (by decide) 2 1 (by decide) (by decide)⟩

end Engine

/-- C17: in every state reached from the empty engine by `insertRecord` and `deleteById`
calls, every value stored in `idIndex` and every element of every sequence of `lastIndex`
is at least 0 and below the store length, so the bounds test made on it passes and the
store holds a record at that position. -/
theorem positions_in_bounds (ops : List Op) :
    (∀ k rid, (k, rid) ∈ (run ops).idIndex.root.toList →
        (0 ≤ rid ∧ rid < ((run ops).heap.length : Int))
          ∧ ¬ (rid < 0 ∨ rid ≥ ((run ops).heap.length : Int))
          ∧ ∃ r, (run ops).heap[rid.toNat]? = some r)
      ∧ (∀ key vec, (key, vec) ∈ (run ops).lastIndex.root.toList → ∀ p ∈ vec,
        (0 ≤ p ∧ p < ((run ops).heap.length : Int))
          ∧ ∃ r, (run ops).heap[p.toNat]? = some r) := by
  have hinv := inv_run ops
  constructor
  · intro k rid hk
    obtain ⟨h0, h1, r, hr, _⟩ :=
      hinv.idBound k rid ((Tree.find_eq_some_iff _ hinv.idOrdered k rid).mpr hk)
    exact ⟨⟨h0, h1⟩, by omega, r, hr⟩
  · intro key vec hkv p hp
    obtain ⟨h0, h1, r, hr, _⟩ :=
      (hinv.lastBound key vec ((Tree.find_eq_some_iff _ hinv.lastOrdered key vec).mpr hkv)).2 p hp
    exact ⟨⟨h0, h1⟩, r, hr⟩

/-- C16: in every state reached from the empty engine by `insertRecord` and `deleteById`
calls and for every prefix, the positions returned by `prefixByLast(prefix)` come in
ascending order of the lower-cased last name (byte-wise lexicographic), and positions
whose records share the lower-cased last name come in ascending position, which is the
order of insertion.  In the scenario, `prefixByLast("Sm")` returns position 0 (record 1)
and then position 1 (record 2). -/
theorem prefixByLast_order (ops : List Op) (pfx : Str) :
    (((run ops).prefixByLast pfx).1).Pairwise
        (fun p q => ∀ a b, (run ops).heap[p]? = some a → (run ops).heap[q]? = some b →
          toLower a.last < toLower b.last ∨ (toLower a.last = toLower b.last ∧ p < q))
      ∧ ((run [Op.insert rec1, Op.insert rec2, Op.insert rec3]).prefixByLast sm).1 = [0, 1] := by
  refine ⟨?_, by decide⟩
  have hinv := inv_run ops
  rw [Engine.prefixByLast_fst _ hinv.lastOrdered]
  have hentry : ∀ kv ∈ (Tree.inRange (toLower pfx) ((toLower pfx).push_back 255)
      (run ops).lastIndex.root).filter (fun kv => startsWith kv.1 (toLower pfx)),
      (run ops).lastIndex.root.find kv.1 = some kv.2 := by
    intro kv hkv
    exact ((Tree.mem_inRange _ _ _ hinv.lastOrdered kv.1 kv.2).mp (List.mem_filter.mp hkv).1).1
  have hrec : ∀ kv ∈ (Tree.inRange (toLower pfx) ((toLower pfx).push_back 255)
      (run ops).lastIndex.root).filter (fun kv => startsWith kv.1 (toLower pfx)),
      ∀ x ∈ (kv.2.filter (Engine.isLive (run ops).heap)).map Int.toNat,
      ∀ a, (run ops).heap[x]? = some a → toLower a.last = kv.1 := by
    intro kv hkv x hx a ha
    rw [List.mem_map] at hx
    obtain ⟨rid, hrid, rfl⟩ := hx
    obtain ⟨_, _, r, hr, hl⟩ :=
      (hinv.lastBound kv.1 kv.2 (hentry kv hkv)).2 rid (List.mem_filter.mp hrid).1
    rw [hr, Option.some.injEq] at ha
    subst ha
    exact hl
  rw [List.pairwise_flatMap]
  constructor
  · intro kv hkv
    rw [List.pairwise_map]
    have hpw := ((hinv.lastBound kv.1 kv.2 (hentry kv hkv)).1).filter
      (Engine.isLive (run ops).heap)
    refine List.Pairwise.imp_of_mem ?_ hpw
    intro x y hx hy hxy a b ha hb
    have hx0 := ((Engine.isLive_iff _ _).mp (List.mem_filter.mp hx).2).1
    have ha2 := hrec kv hkv _ (List.mem_map_of_mem Int.toNat hx) a ha
    have hb2 := hrec kv hkv _ (List.mem_map_of_mem Int.toNat hy) b hb
    exact Or.inr ⟨ha2.trans hb2.symm, by omega⟩
  · have hpw := (Tree.pairwise_inRange (toLower pfx) ((toLower pfx).push_back 255)
      (run ops).lastIndex.root hinv.lastOrdered).filter
      (fun kv => startsWith kv.1 (toLower pfx))
    refine List.Pairwise.imp_of_mem ?_ hpw
    intro kv1 kv2 h1 h2 hlt x hx y hy a b ha hb
    left
    rw [hrec kv1 h1 x hx a ha, hrec kv2 h2 y hy b hb]
    exact hlt

end MiniDB
